import Mathlib

/-!
Verification of the dependency-graph resolution and diff engine of
`cargo-resolvediff` against its specification.

The development shallowly embeds the Rust sources:
* `src/resolve.rs` — the graph walker (`Resolved::resolve_platform`), dependency
  kinds, inclusion reasons, and `Resolved::resolve_filtered_from_indexed`;
* `src/diff.rs` — `Diff::between` and `Diff::compare`;
* `src/major_updates.rs` — `is_major_update_for` and
  `ManifestSet::write_version_to_memory`;
* `src/toml_edit.rs` — `MutableTomlFile` with its write-back / commit /
  roll-back life cycle.

Rust `BTreeMap`s / `BTreeSet`s are modelled as association lists with ordered
insertion (for the maps whose iteration order the code observes) and
content-faithful insertion elsewhere; machine integers are `Nat` (no arithmetic
in the sources can overflow in a way any claim observes); panics and fallible
operations are modelled with `Option` or an explicit result type.
-/

namespace ResolveDiff

/-- Strings ordered lexicographically by their character lists, matching the
byte-lexicographic `Ord` of Rust strings that the `BTreeMap`s of the source
sort by. (The ambient instance decides `<` by an iterator loop defined by
well-founded recursion, which blocks definitional reduction; this one is
kernel-computable.) -/
instance (priority := 1100) stringLinearOrder : LinearOrder String :=
  { (inferInstance : LinearOrder String) with
    decidableLT := fun a b =>
      decidable_of_iff (a.toList < b.toList) String.lt_iff_toList_lt.symm
    decidableLE := fun a b =>
      decidable_of_iff (a.toList ≤ b.toList) String.le_iff_toList_le.symm
    decidableEq := String.decEq
    min_def := fun a b =>
      ((inferInstance : LinearOrder String).min_def a b).trans
        (congrArg (fun h => @ite _ (a ≤ b) h a b) (Subsingleton.elim _ _))
    max_def := fun a b =>
      ((inferInstance : LinearOrder String).max_def a b).trans
        (congrArg (fun h => @ite _ (a ≤ b) h b a) (Subsingleton.elim _ _))
    compare_eq_compareOfLessAndEq := fun a b =>
      ((inferInstance : LinearOrder String).compare_eq_compareOfLessAndEq a b).trans
        (by
          unfold compareOfLessAndEq
          congr 1
          try exact Subsingleton.elim _ _
          congr 1) }

/-! ## Semver versions (the `semver` crate's data model)

A prerelease or build-metadata identifier is either numeric or alphanumeric;
numeric identifiers compare numerically and sort below alphanumeric ones,
alphanumeric ones compare as ASCII strings.
-/

inductive PreId where
  | num (n : Nat)
  | str (s : String)
deriving DecidableEq

/-- A semver version, as in `semver::Version`: `major.minor.patch-pre+build`. -/
structure Version where
  major : Nat
  minor : Nat
  patch : Nat
  pre : List PreId
  build : List PreId
deriving DecidableEq

def PreId.key : PreId → Nat ⊕ₗ String
  | .num n => toLex (Sum.inl n)
  | .str s => toLex (Sum.inr s)

theorem PreId.key_inj : Function.Injective PreId.key := by
  intro a b h
  cases a <;> cases b <;> simp [PreId.key, toLex] at h <;> simp [h]

/-- The `semver` precedence order on prereleases: the empty prerelease is
greatest (a release sorts after all its prereleases); nonempty identifier
lists compare lexicographically with a proper prefix sorting first. -/
def prereleaseKey (l : List PreId) : WithTop (List (Nat ⊕ₗ String)) :=
  match l with
  | [] => ⊤
  | _ :: _ => (l.map PreId.key : List (Nat ⊕ₗ String))

/-- Build metadata: the empty metadata is least, identifier lists compare
lexicographically. -/
def buildKey (l : List PreId) : List (Nat ⊕ₗ String) :=
  l.map PreId.key

theorem prereleaseKey_injective : Function.Injective prereleaseKey := by
  intro a b h
  match a, b with
  | [], [] => rfl
  | [], x :: xs => exact absurd h.symm WithTop.coe_ne_top
  | x :: xs, [] => exact absurd h WithTop.coe_ne_top
  | x :: xs, y :: ys =>
    simp only [prereleaseKey, WithTop.coe_eq_coe] at h
    exact List.map_injective_iff.mpr PreId.key_inj h

theorem buildKey_injective : Function.Injective buildKey :=
  List.map_injective_iff.mpr PreId.key_inj

/-- The total order key of a version: lexicographic on
(major, minor, patch, prerelease, build), as in the `semver` crate's `Ord`. -/
def Version.key (v : Version) :
    Nat ×ₗ (Nat ×ₗ (Nat ×ₗ ((WithTop (List (Nat ⊕ₗ String))) ×ₗ List (Nat ⊕ₗ String)))) :=
  toLex (v.major, toLex (v.minor, toLex (v.patch,
    toLex (prereleaseKey v.pre, buildKey v.build))))

theorem Version.key_injective : Function.Injective Version.key := by
  intro a b h
  have h0 := toLex.injective h
  rw [Prod.ext_iff] at h0
  obtain ⟨e1, h0⟩ := h0
  have h1 := toLex.injective h0
  rw [Prod.ext_iff] at h1
  obtain ⟨e2, h1⟩ := h1
  have h2 := toLex.injective h1
  rw [Prod.ext_iff] at h2
  obtain ⟨e3, h2⟩ := h2
  have h3 := toLex.injective h2
  rw [Prod.ext_iff] at h3
  obtain ⟨e4, e5⟩ := h3
  cases a; cases b
  simp only [Version.mk.injEq]
  exact ⟨e1, e2, e3, prereleaseKey_injective e4, buildKey_injective e5⟩

instance : LinearOrder Version := LinearOrder.lift' Version.key Version.key_injective

theorem Version.le_iff_key (a b : Version) : a ≤ b ↔ a.key ≤ b.key := Iff.rfl

/-! ## Dependency kinds (`src/resolve.rs`) -/

/-- The kind of a dependency regarding when it is built or run. -/
structure DependencyKind where
  run_at_build : Bool
  only_debug_builds : Bool
deriving DecidableEq

/-- A dependency that is not run at build and included in release builds. -/
def DependencyKind.NORMAL : DependencyKind := ⟨false, false⟩

/-- A dependency that is not run at build and only included via dev-dependencies. -/
def DependencyKind.DEVELOPMENT : DependencyKind := ⟨false, true⟩

/-- A dependency that is run at build time for release builds. -/
def DependencyKind.BUILD : DependencyKind := ⟨true, false⟩

/-- Combine dependency kinds between a parent dependency and its edge to a
child (`DependencyKind::then`; `then` is reserved in Lean). -/
def DependencyKind.then' (a next : DependencyKind) : DependencyKind :=
  ⟨a.run_at_build || next.run_at_build, a.only_debug_builds || next.only_debug_builds⟩

/-- Combine dependency kinds for a crate version coming from different paths
(`DependencyKind::merged_with`). -/
def DependencyKind.merged_with (a other : DependencyKind) : DependencyKind :=
  ⟨a.run_at_build || other.run_at_build, a.only_debug_builds && other.only_debug_builds⟩

/-- The edge kinds of `cargo_metadata::DependencyKind` that the code supports;
the conversion in `resolve.rs` panics on any other variant, which the model
leaves out of the type. -/
inductive EdgeKind where
  | normal
  | development
  | build
deriving DecidableEq

/-- `impl From<cargo_metadata::DependencyKind> for DependencyKind`. -/
def EdgeKind.toDependencyKind : EdgeKind → DependencyKind
  | .normal => DependencyKind.NORMAL
  | .development => DependencyKind.DEVELOPMENT
  | .build => DependencyKind.BUILD

/-- The target kinds `resolve_platform` distinguishes; an unknown kind is a
panic in the source and is left out of the type. -/
inductive TargetKind where
  | bench
  | bin
  | cdylib
  | dylib
  | exampleTarget
  | lib
  | rlib
  | staticlib
  | test
  | customBuild
  | procMacro
deriving DecidableEq

/-- An opaque platform tuple string, ordered lexicographically. -/
structure Platform where
  triple : String
deriving DecidableEq

instance : LinearOrder Platform :=
  LinearOrder.lift' Platform.triple (fun a b h => by cases a; cases b; simpa using h)

/-! ## Crate identifiers and paths (`src/resolve.rs`) -/

/-- Workspace-relative UTF-8 paths, modelled as segment lists. -/
abbrev Utf8Path := List String

/-- `shorten_path_relative_to` from `resolve.rs`. -/
def shorten_path_relative_to (relative path : Utf8Path) : Utf8Path :=
  if relative.isPrefixOf path then path.drop relative.length else path

/-- A crates.io dependency with a specific version (`SpecificCrateIdent`). -/
structure SpecificCrateIdent where
  name : String
  version : Version
deriving DecidableEq

instance : LinearOrder SpecificCrateIdent :=
  LinearOrder.lift' (fun sci => (toLex (sci.name, sci.version) : String ×ₗ Version))
    (fun a b h => by
      cases a; cases b
      have h' := toLex.injective h
      rw [Prod.ext_iff] at h'
      simp only [SpecificCrateIdent.mk.injEq]
      exact h')

/-- `AnyCrateIdent`: a local package (by workspace-relative directory) or a
registry package (by name). -/
inductive AnyCrateIdent where
  | local' (path : Utf8Path)
  | cratesIo (name : String)
deriving DecidableEq

/-- `SpecificAnyCrateIdent`: a local package or a registry package pinned to a
version. -/
inductive SpecificAnyCrateIdent where
  | local' (path : Utf8Path)
  | cratesIo (ident : SpecificCrateIdent)
deriving DecidableEq

/-- `AnyCrateIdent::with_version`. -/
def AnyCrateIdent.with_version : AnyCrateIdent → Version → SpecificAnyCrateIdent
  | .cratesIo name, version => .cratesIo ⟨name, version⟩
  | .local' manifest_path, _ => .local' manifest_path

/-! ## Version requirements and matching (the `semver` crate)

`is_major_update_for` in `src/major_updates.rs` calls `VersionReq::matches`,
so the crate's comparator evaluation (`semver`'s `eval.rs`) is embedded here.
-/

/-- `semver::Op`, the comparison operators of one comparator. -/
inductive Op where
  | exact
  | greater
  | greaterEq
  | less
  | lessEq
  | tilde
  | caret
  | wildcard
deriving DecidableEq

/-- `semver::Comparator`. -/
structure Comparator where
  op : Op
  major : Nat
  minor : Option Nat
  patch : Option Nat
  pre : List PreId
deriving DecidableEq

/-- `semver::VersionReq`: a conjunction of comparators (empty means `*`). -/
structure VersionReq where
  comparators : List Comparator
deriving DecidableEq

/-- Strict precedence order on prereleases (`Ord for semver::Prerelease`). -/
def preLt (a b : List PreId) : Bool :=
  decide (prereleaseKey a < prereleaseKey b)

/-- `matches_exact` from `semver`'s `eval.rs`. -/
def matches_exact (cmp : Comparator) (ver : Version) : Bool :=
  (ver.major == cmp.major)
    && cmp.minor.all (fun minor => ver.minor == minor)
    && cmp.patch.all (fun patch => ver.patch == patch)
    && (ver.pre == cmp.pre)

/-- `matches_greater` from `semver`'s `eval.rs`. -/
def matches_greater (cmp : Comparator) (ver : Version) : Bool :=
  if ver.major != cmp.major then decide (ver.major > cmp.major) else
  match cmp.minor with
  | none => false
  | some minor =>
    if ver.minor != minor then decide (ver.minor > minor) else
    match cmp.patch with
    | none => false
    | some patch =>
      if ver.patch != patch then decide (ver.patch > patch) else
      preLt cmp.pre ver.pre

/-- `matches_less` from `semver`'s `eval.rs`. -/
def matches_less (cmp : Comparator) (ver : Version) : Bool :=
  if ver.major != cmp.major then decide (ver.major < cmp.major) else
  match cmp.minor with
  | none => false
  | some minor =>
    if ver.minor != minor then decide (ver.minor < minor) else
    match cmp.patch with
    | none => false
    | some patch =>
      if ver.patch != patch then decide (ver.patch < patch) else
      preLt ver.pre cmp.pre

/-- `matches_tilde` from `semver`'s `eval.rs`. -/
def matches_tilde (cmp : Comparator) (ver : Version) : Bool :=
  if ver.major != cmp.major then false else
  if cmp.minor.any (fun minor => ver.minor != minor) then false else
  match cmp.patch with
  | none => !preLt ver.pre cmp.pre
  | some patch =>
    if ver.patch != patch then decide (ver.patch > patch) else
    !preLt ver.pre cmp.pre

/-- `matches_caret` from `semver`'s `eval.rs`. -/
def matches_caret (cmp : Comparator) (ver : Version) : Bool :=
  if ver.major != cmp.major then false else
  match cmp.minor with
  | none => true
  | some minor =>
    match cmp.patch with
    | none =>
      if cmp.major > 0 then decide (ver.minor ≥ minor) else decide (ver.minor = minor)
    | some patch =>
      if cmp.major > 0 then
        (if ver.minor != minor then decide (ver.minor > minor)
         else if ver.patch != patch then decide (ver.patch > patch)
         else !preLt ver.pre cmp.pre)
      else if minor > 0 then
        (if ver.minor != minor then false
         else if ver.patch != patch then decide (ver.patch > patch)
         else !preLt ver.pre cmp.pre)
      else
        (if ver.minor != minor || ver.patch != patch then false
         else !preLt ver.pre cmp.pre)

/-- `matches_impl` from `semver`'s `eval.rs`. -/
def matches_impl (cmp : Comparator) (ver : Version) : Bool :=
  match cmp.op with
  | .exact | .wildcard => matches_exact cmp ver
  | .greater => matches_greater cmp ver
  | .greaterEq => matches_exact cmp ver || matches_greater cmp ver
  | .less => matches_less cmp ver
  | .lessEq => matches_exact cmp ver || matches_less cmp ver
  | .tilde => matches_tilde cmp ver
  | .caret => matches_caret cmp ver

/-- `pre_is_compatible` from `semver`'s `eval.rs`. -/
def pre_is_compatible (cmp : Comparator) (ver : Version) : Bool :=
  (cmp.major == ver.major)
    && (cmp.minor == some ver.minor)
    && (cmp.patch == some ver.patch)
    && !cmp.pre.isEmpty

/-- `VersionReq::matches`: every comparator matches, and a prerelease version
additionally needs some comparator at the same triple with a prerelease. -/
def reqMatches (req : VersionReq) (ver : Version) : Bool :=
  req.comparators.all (fun cmp => matches_impl cmp ver)
    && (ver.pre.isEmpty || req.comparators.any (fun cmp => pre_is_compatible cmp ver))

/-! ## Major-update policy (`src/major_updates.rs`) -/

/-- The version stripped of prerelease and build metadata, as built at the top
of `is_major_update_for`. -/
def strippedOf (version : Version) : Version :=
  { version with build := [], pre := [] }

/-- The implicit version of one comparator inside `is_major_update_for`'s
loop: missing minor/patch components are filled from the candidate version,
prerelease and build are empty. -/
def implicitVersion (i : Comparator) (version : Version) : Version :=
  ⟨i.major, i.minor.getD version.minor, i.patch.getD version.patch, [], []⟩

/-- The comparator loop of `is_major_update_for`; `none` models the
`unreachable!` panic on a wildcard comparator. -/
def majorLoop (version stripped : Version) : List Comparator → Option Bool
  | [] => some true
  | i :: rest =>
    let i_version := implicitVersion i version
    match i.op with
    | .less | .lessEq =>
      if i_version = stripped then some false else majorLoop version stripped rest
    | .exact | .greater | .greaterEq | .tilde | .caret =>
      if stripped ≤ i_version then some false else majorLoop version stripped rest
    | .wildcard => none

/-- `is_major_update_for` from `src/major_updates.rs`; `none` models the panic
on a wildcard comparator surviving to the loop. -/
def is_major_update_for (requirement : VersionReq) (version : Version) : Option Bool :=
  if reqMatches requirement version then some false
  else if !version.pre.isEmpty then some false
  else majorLoop version (strippedOf version) requirement.comparators

/-! ## Indexed metadata (`src/indexed.rs`) -/

/-- Opaque stable package ids, as `cargo_metadata::PackageId` keys. -/
abbrev PackageId := Nat

/-- A build target; only its kind list is consumed by the walker. -/
structure Target where
  kind : List TargetKind
deriving DecidableEq

/-- The fields of `cargo_metadata::Package` the sources consume. -/
structure Package where
  name : String
  version : Version
  source : Option String
  manifest_path : Utf8Path
  targets : List Target
deriving DecidableEq

/-- One outgoing dependency edge of a resolve node, with its edge kinds
(`cargo_metadata::NodeDep`; the per-kind target field is never read). -/
structure NodeDep where
  pkg : PackageId
  dep_kinds : List EdgeKind
deriving DecidableEq

/-- A resolve node; only its dependency edges are consumed. -/
structure Node where
  deps : List NodeDep
deriving DecidableEq

/-- The indexed output of `cargo metadata` (`IndexedMetadata`); the two hash
maps are modelled as association lists. -/
structure IndexedMetadata where
  platform : Option Platform
  packages : List (PackageId × Package)
  resolve : List (PackageId × Node)
  workspace_root : Utf8Path
  workspace_members : List PackageId
  workspace_default_members : Option (List PackageId)

/-- `IndexedMetadata::get_workspace_default_members`. -/
def IndexedMetadata.get_workspace_default_members (m : IndexedMetadata) : List PackageId :=
  m.workspace_default_members.getD m.workspace_members

/-- `AnyCrateIdent::from_package`. -/
def AnyCrateIdent.from_package (relative : Utf8Path) (package : Package) : AnyCrateIdent :=
  if package.source.isSome then .cratesIo package.name
  else .local' (shorten_path_relative_to relative package.manifest_path.dropLast)

/-! ## The resolution state (`src/resolve.rs`)

`BTreeMap`/`BTreeSet` values are association lists/lists with ordered
insertion; the map of reasons is keyed structurally and modelled
content-faithfully (first-hit update, append for a fresh key) since nothing
in the sources observes its iteration order.
-/

/-- The reason for the inclusion of a dependency (`IncludedDependencyReason`). -/
structure IncludedDependencyReason where
  kind : DependencyKind
  root : Utf8Path
  intermediate_root_dependency : Option SpecificAnyCrateIdent
  parent : SpecificAnyCrateIdent
deriving DecidableEq

/-- `Reasons`: inclusion reasons mapped to the platforms realizing them. -/
abbrev Reasons := List (IncludedDependencyReason × List Platform)

/-- `IncludedDependencyVersion`: the per-(name, version) resolution record. -/
structure IncludedDependencyVersion where
  kind : DependencyKind
  has_build_rs : Bool
  is_proc_macro : Bool
  reasons : Reasons
  platforms : List Platform
deriving DecidableEq

/-- The inner per-name map from versions to records. -/
abbrev VersionMap := List (Version × IncludedDependencyVersion)

/-- `Included`: name to version to record. -/
abbrev Included := List (String × VersionMap)

/-- Ordered-set insertion (models `BTreeSet::insert`). -/
def insertSortedSet {α : Type} [LinearOrder α] (x : α) : List α → List α
  | [] => [x]
  | y :: ys => if x < y then x :: y :: ys else if x = y then y :: ys else y :: insertSortedSet x ys

/-- Ordered-map insertion (models `BTreeMap::insert`, replacing the value of
an existing key). -/
def mapInsert {κ ν : Type} [LinearOrder κ] (k : κ) (v : ν) : List (κ × ν) → List (κ × ν)
  | [] => [(k, v)]
  | (k', v') :: rest =>
    if k < k' then (k, v) :: (k', v') :: rest
    else if k = k' then (k, v) :: rest
    else (k', v') :: mapInsert k v rest

/-- `version.reasons.entry(reason).or_default()` followed by inserting the
platform (when there is one) into that reason's platform set. -/
def reasonsInsert : Reasons → IncludedDependencyReason → Option Platform → Reasons
  | [], reason, platform => [(reason, platform.elim [] (fun p => [p]))]
  | (r, ps) :: rest, reason, platform =>
    if r = reason then (r, platform.elim ps (fun p => insertSortedSet p ps)) :: rest
    else (r, ps) :: reasonsInsert rest reason platform

/-- Lookup of a (name, version) record in an `Included` map. -/
def includedLookup (included : Included) (name : String) (version : Version) :
    Option IncludedDependencyVersion :=
  (included.lookup name).bind (fun versions => versions.lookup version)

/-- `included.entry(name).or_default().entry(version)` resolved to an insert
of the updated record. -/
def includedInsert (included : Included) (name : String) (version : Version)
    (entry : IncludedDependencyVersion) : Included :=
  mapInsert name (mapInsert version entry ((included.lookup name).getD [])) included

/-! ## The graph walker (`Resolved::resolve_platform`) -/

/-- The tag on a work item: reached as a workspace default member, or through
a dependency edge with its reason. -/
inductive TodoFrom where
  | workspace (path : Utf8Path)
  | dependency (reason : IncludedDependencyReason)
deriving DecidableEq

/-- One work item of the walk. -/
structure Todo where
  kind : DependencyKind
  incoming_edge : TodoFrom
  pkg : PackageId
deriving DecidableEq

def TodoFrom.isWorkspace : TodoFrom → Bool
  | .workspace _ => true
  | .dependency _ => false

/-- Whether the package has a `custom-build` target (`has_build_rs`). -/
def packageHasBuildRs (package : Package) : Bool :=
  package.targets.any (fun t => t.kind.contains TargetKind.customBuild)

/-- Whether the package has a `proc-macro` target (`is_proc_macro`). -/
def packageIsProcMacro (package : Package) : Bool :=
  package.targets.any (fun t => t.kind.contains TargetKind.procMacro)

/-- The edge-kind filter of the walker: development kinds pass only when the
current work item was reached as a workspace member; all other kinds always
pass. -/
def admissibleKind (incoming_edge : TodoFrom) (kind : EdgeKind) : Bool :=
  incoming_edge.isWorkspace || kind != EdgeKind.development

/-- `Iterator::reduce`. -/
def listReduce {α : Type} (f : α → α → α) : List α → Option α
  | [] => none
  | x :: xs => some (xs.foldl f x)

/-- Processing of one outgoing dependency edge: filter admissible kinds,
reduce them to one kind, and build the child work item (`None` when no
admissible kind remains, skipping the edge). -/
def childTodoFor (package_kind : DependencyKind) (dep_parent : SpecificAnyCrateIdent)
    (incoming_edge : TodoFrom) (dep : NodeDep) : Option Todo :=
  match listReduce DependencyKind.merged_with
      ((dep.dep_kinds.filter (fun kind => admissibleKind incoming_edge kind)).map
        (fun kind => package_kind.then' kind.toDependencyKind)) with
  | none => none
  | some dep_kind =>
    let ri :=
      match incoming_edge with
      | .workspace root => (root, none)
      | .dependency reason =>
        (reason.root, some (reason.intermediate_root_dependency.getD dep_parent))
    some { kind := dep_kind,
           incoming_edge := .dependency
             { kind := package_kind, root := ri.1, intermediate_root_dependency := ri.2,
               parent := dep_parent },
           pkg := dep.pkg }

/-- All child work items scheduled from a node. -/
def childTodos (node : Node) (package_kind : DependencyKind)
    (dep_parent : SpecificAnyCrateIdent) (incoming_edge : TodoFrom) : List Todo :=
  node.deps.filterMap (childTodoFor package_kind dep_parent incoming_edge)

/-- The outcome of recording one visit of a registry package: the updated
entry, whether the visit was novel (a fresh entry, a changed merged kind, or
a new platform), and the merged kind the children are scheduled with. -/
structure RegistryStep where
  entry : IncludedDependencyVersion
  novelty : Bool
  merged : DependencyKind

/-- The registry bookkeeping of one loop iteration of `resolve_platform`:
locate or create the (name, version) entry, merge the kind, record the
reason (with the platform, if any) and the platform. -/
def registryStep (m : IndexedMetadata) (included : Included) (todo : Todo)
    (package_kind : DependencyKind) (has_build_rs is_proc_macro : Bool)
    (name : String) (version : Version) : RegistryStep :=
  let prev := includedLookup included name version
  let inserted_new := prev.isNone
  let version0 := prev.getD
    { kind := package_kind, has_build_rs, is_proc_macro, reasons := [], platforms := [] }
  let merged := version0.kind.merged_with package_kind
  let new_kind := merged != version0.kind
  let version1 := { version0 with kind := merged }
  let version2 :=
    match todo.incoming_edge with
    | .workspace _ => version1
    | .dependency reason =>
      { version1 with reasons := reasonsInsert version1.reasons reason m.platform }
  let step :=
    match m.platform with
    | none => (false, version2)
    | some platform =>
      if version2.platforms.contains platform then (false, version2)
      else (true, { version2 with platforms := insertSortedSet platform version2.platforms })
  ⟨step.2, inserted_new || new_kind || step.1, merged⟩

/-- The `package_kind` let-binding of the loop body: the work item's kind
with the run-at-build flag forced for a proc-macro package. -/
def packageKindOf (todo : Todo) (package : Package) : DependencyKind :=
  if packageIsProcMacro package then { todo.kind with run_at_build := true } else todo.kind

/-- The `dep_parent` let-binding of the loop body. -/
def depParentOf (m : IndexedMetadata) (package : Package) : SpecificAnyCrateIdent :=
  (AnyCrateIdent.from_package m.workspace_root package).with_version package.version

/-- Processing of one work item of `resolve_platform`'s loop body: classify
targets, record a registry package (creating or merging its entry, recording
the reason and platform), and decide whether to schedule outgoing edges.
`none` models the panics on missing index entries. -/
def processTodo (m : IndexedMetadata) (included : Included) (todo : Todo) :
    Option (Included × List Todo) := do
  let package ← m.packages.lookup todo.pkg
  let node ← m.resolve.lookup todo.pkg
  let package_ident := AnyCrateIdent.from_package m.workspace_root package
  let has_build_rs := packageHasBuildRs package
  let is_proc_macro := packageIsProcMacro package
  let package_kind :=
    if is_proc_macro then { todo.kind with run_at_build := true } else todo.kind
  let dep_parent := package_ident.with_version package.version
  match package_ident with
  | .cratesIo name =>
    let rs := registryStep m included todo package_kind has_build_rs is_proc_macro
      name package.version
    let included' := includedInsert included name package.version rs.entry
    if !rs.novelty then
      some (included', [])
    else
      some (included', childTodos node rs.merged dep_parent todo.incoming_edge)
  | .local' _ =>
    some (included, childTodos node package_kind dep_parent todo.incoming_edge)

/-- The outcome of running the work queue with a given amount of fuel. -/
inductive WalkRes where
  | done (included : Included)
  | panicked
  | outOfFuel
deriving DecidableEq

/-- The work-queue loop of `resolve_platform`. The Rust `Vec` pops from its
end; the model keeps the queue reversed (head = next item), so freshly
scheduled children are prepended in reverse. -/
def walk (m : IndexedMetadata) : Nat → List Todo → Included → WalkRes
  | _, [], included => .done included
  | 0, _ :: _, _ => .outOfFuel
  | fuel + 1, todo :: rest, included =>
    match processTodo m included todo with
    | none => .panicked
    | some (included', children) => walk m fuel (children.reverse ++ rest) included'

/-- The initial work items: one per workspace default member, tagged with its
workspace-relative manifest path. -/
def initTodos (m : IndexedMetadata) : Option (List Todo) :=
  m.get_workspace_default_members.mapM (fun pkg =>
    (m.packages.lookup pkg).map (fun package =>
      { kind := DependencyKind.NORMAL,
        incoming_edge := TodoFrom.workspace
          (shorten_path_relative_to m.workspace_root package.manifest_path),
        pkg }))

/-- `Resolved::resolve_platform`, extending `included`, with explicit fuel. -/
def resolve_platform (fuel : Nat) (m : IndexedMetadata) (included : Included) : WalkRes :=
  match initTodos m with
  | none => .panicked
  | some todos => walk m fuel todos.reverse included

/-- `Resolved`: the fully resolved information ready for diffing. -/
structure Resolved where
  full_metadata : IndexedMetadata
  included : Included
  filtered : List SpecificCrateIdent

/-- `Resolved::resolve_filtered_from_indexed`; `none` models the
`assert_eq!(full_metadata.platform, None)` panic. -/
def resolve_filtered_from_indexed (included : Included) (full_metadata : IndexedMetadata) :
    Option Resolved :=
  if full_metadata.platform ≠ none then none
  else
    let filtered := full_metadata.packages.foldl (fun filtered pair =>
      match AnyCrateIdent.from_package full_metadata.workspace_root pair.2 with
      | .cratesIo name =>
        let was_included := (included.lookup name).elim false
          (fun versions => (versions.lookup pair.2.version).isSome)
        if !was_included then insertSortedSet ⟨name, pair.2.version⟩ filtered else filtered
      | .local' _ => filtered) []
    some { full_metadata, included, filtered }

/-! ## The diff generator (`src/diff.rs`) -/

/-- An added dependency on the right (`Added`). -/
structure Added where
  ident : SpecificCrateIdent
  kind : DependencyKind
  has_build_rs : Bool
  is_proc_macro : Bool
  platforms : List Platform
  reasons : Reasons
deriving DecidableEq

/-- A changed dependency on the right (`Comparison`). -/
structure Comparison where
  ident : SpecificCrateIdent
  kind : DependencyKind
  has_build_rs : Bool
  is_proc_macro : Bool
  platforms : List Platform
  reasons : Reasons
  closest_different_old_version : Option Version
  all_other_old_versions : List Version
  added_in_platforms : List (Platform × List IncludedDependencyReason)
  added_in_build : Reasons
  added_in_non_debug : Reasons
deriving DecidableEq

/-- `Comparison::requires_review`. -/
def Comparison.requires_review (c : Comparison) : Bool :=
  c.closest_different_old_version.isSome || !c.added_in_platforms.isEmpty
    || !c.added_in_build.isEmpty || !c.added_in_non_debug.isEmpty

/-- A removed dependency (`Removed`). -/
structure Removed where
  ident : SpecificCrateIdent
  remaining_versions : List Version
deriving DecidableEq

/-- The full diff between two resolutions (`Diff`). -/
structure Diff where
  added : List Added
  changed : List Comparison
  removed : List Removed
  filtered_added : List SpecificCrateIdent
  filtered_removed : List SpecificCrateIdent
deriving DecidableEq

/-- `Diff::compare`: build the `Comparison` for one new (name, version)
against the old versions of the same name. The `BTreeMap::range` call is the
first entry of the (sorted) old map whose key is at least the new version;
`none` models the `.expect` panic on an empty old version map. -/
def Diff.compare (name : String) (old : VersionMap) (new_version : Version)
    (new : IncludedDependencyVersion) : Option Comparison := do
  let closest ← (old.find? (fun p => decide (new_version ≤ p.1))).orElse (fun _ => old.getLast?)
  let closest_old_version := closest.1
  let closest_old_info := closest.2
  let closest_different_old_version :=
    if closest_old_version ≠ new_version then some closest_old_version else none
  let all_other_old_versions :=
    match closest_different_old_version with
    | some already_mentioned => (old.map Prod.fst).filter (fun i => i ≠ already_mentioned)
    | none => []
  let added_in_platforms :=
    (new.platforms.filter (fun i => !closest_old_info.platforms.contains i)).map
      (fun platform =>
        (platform, (new.reasons.filter (fun rp => rp.2.contains platform)).map Prod.fst))
  let added_in_build :=
    if new.kind.run_at_build && !closest_old_info.kind.run_at_build then
      new.reasons.filter (fun rp => rp.1.kind.run_at_build)
    else []
  let added_in_non_debug :=
    if !new.kind.only_debug_builds && closest_old_info.kind.only_debug_builds then
      new.reasons.filter (fun rp => !rp.1.kind.only_debug_builds)
    else []
  some { ident := ⟨name, new_version⟩, kind := new.kind, has_build_rs := new.has_build_rs,
         is_proc_macro := IncludedDependencyVersion.is_proc_macro new, platforms := new.platforms, reasons := new.reasons,
         closest_different_old_version, all_other_old_versions,
         added_in_platforms, added_in_build, added_in_non_debug }

/-- The helper closure `in_right_set` of `Diff::between`: the elements of
`right` that are not in `left`. -/
def in_right_set (left right : List SpecificCrateIdent) : List SpecificCrateIdent :=
  right.filter (fun item => !left.contains item)

/-- `Diff::between`: the differences between two resolutions. `none` models a
panic inside `Diff::compare`. Note that the source computes `filtered_added`
and `filtered_removed` with the same expression. -/
def Diff.between (old new : Resolved) : Option Diff := do
  let added := (new.included.filter (fun p => (old.included.lookup p.1).isNone)).flatMap
    (fun p => p.2.map (fun vp =>
      ({ ident := ⟨p.1, vp.1⟩, kind := vp.2.kind, has_build_rs := vp.2.has_build_rs,
         is_proc_macro := IncludedDependencyVersion.is_proc_macro vp.2, platforms := vp.2.platforms,
         reasons := vp.2.reasons } : Added)))
  let changedNested ← (new.included.filterMap (fun p =>
      (old.included.lookup p.1).map (fun old_versions => (p.1, old_versions, p.2)))).mapM
    (fun t => t.2.2.mapM (fun vp => Diff.compare t.1 t.2.1 vp.1 vp.2))
  let changed := changedNested.flatten.filter Comparison.requires_review
  let removed := (old.included.filterMap (fun p =>
      let new_versions := new.included.lookup p.1
      let has_change := new_versions.elim false
        (fun nv => nv.any (fun kv => !(p.2.lookup kv.1).isSome))
      if has_change then none else some (p.1, p.2, new_versions))).flatMap
    (fun t =>
      let is_in_new := fun version => t.2.2.elim false (fun nv => (nv.lookup version).isSome)
      let remaining_versions := (t.2.1.map Prod.fst).filter (fun version => is_in_new version)
      ((t.2.1.map Prod.fst).filter (fun version => !is_in_new version)).map
        (fun version => ({ ident := ⟨t.1, version⟩, remaining_versions } : Removed)))
  let filtered_added := in_right_set old.filtered new.filtered
  let filtered_removed := in_right_set old.filtered new.filtered
  some { added, changed, removed, filtered_added, filtered_removed }

/-! ## The TOML editor (`src/toml_edit.rs`)

The `toml_edit` crate is external; its documents are modelled as trees of
tables and leaves. A string leaf carries its decoration (the surrounding
whitespace/comments the crate preserves). Filesystem writes are modelled as
the string handed to `fs::write`.
-/

/-- The decoration around a TOML value (`toml_edit::Decor`). -/
structure Decor where
  before : String
  after : String
deriving DecidableEq

/-- A formatted string value (`toml_edit::Formatted<String>`). -/
structure FormattedString where
  value : String
  decor : Decor
deriving DecidableEq

/-- A TOML item: nothing, a string value, another scalar value, or a table. -/
inductive TItem where
  | noItem
  | strValue (f : FormattedString)
  | otherValue
  | table (entries : List (String × TItem))

/-- `Item::get`: key lookup on a table, `None` on anything else. -/
def TItem.get (item : TItem) (key : String) : Option TItem :=
  match item with
  | .table entries => entries.lookup key
  | _ => none

/-- `TomlPathLookup::path_lookup`: descend through table keys. -/
def TItem.path_lookup (item : TItem) : List String → Option TItem
  | [] => some item
  | k :: rest => (item.get k).bind (fun it => TItem.path_lookup it rest)

/-- Replace the value stored under a key of an association list, leaving the
entry order untouched (TOML tables have unique keys). -/
def tableSet {ν : Type} (l : List (String × ν)) (k : String) (v : ν) : List (String × ν) :=
  l.map (fun p => if p.1 = k then (p.1, v) else p)

/-- The mutable counterpart of `path_lookup` followed by an update of the
found item; `none` when the path does not resolve or the update refuses the
item's shape. -/
def TItem.modifyAt (item : TItem) (path : List String) (f : TItem → Option TItem) :
    Option TItem :=
  match path with
  | [] => f item
  | k :: rest =>
    match item with
    | .table entries =>
      (entries.lookup k).bind (fun child =>
        (TItem.modifyAt child rest f).map (fun child' => .table (tableSet entries k child')))
    | _ => none

/-- `MutableTomlFile`: the parsed document plus the committed baseline text.
The document type is a parameter: nothing in the claims depends on the
concrete parser of the external `toml_edit` crate. -/
structure MutableTomlFile (Doc : Type) where
  dirty : Bool
  previous_contents : String
  document : Doc

/-- `MutableTomlFile::open` (named `open'`; `open` is reserved in Lean): read
the file, parse it, remember the text as baseline. -/
def MutableTomlFile.open' {Doc : Type} (parse : String → Option Doc) (contents : String) :
    Option (MutableTomlFile Doc) :=
  (parse contents).map (fun document =>
    { dirty := false, previous_contents := contents, document })

/-- One in-memory mutation through `document_mut` (which marks the file
dirty) followed by an arbitrary edit of the document. -/
def MutableTomlFile.document_mut_set {Doc : Type} (file : MutableTomlFile Doc)
    (document : Doc) : MutableTomlFile Doc :=
  { file with dirty := true, document }

/-- A sequence of in-memory mutations. -/
def MutableTomlFile.apply_edits {Doc : Type} (file : MutableTomlFile Doc)
    (edits : List Doc) : MutableTomlFile Doc :=
  edits.foldl MutableTomlFile.document_mut_set file

/-- `MutableTomlFile::write_back`: when dirty, serialize the document and
write it to the file (the written bytes are returned), then clear dirty. -/
def MutableTomlFile.write_back {Doc : Type} (print : Doc → String)
    (file : MutableTomlFile Doc) : MutableTomlFile Doc × Option String :=
  if file.dirty then ({ file with dirty := false }, some (print file.document))
  else (file, none)

/-- `MutableTomlFile::commit`: write back, then advance the baseline to the
serialized current document. -/
def MutableTomlFile.commit {Doc : Type} (print : Doc → String)
    (file : MutableTomlFile Doc) : MutableTomlFile Doc × Option String :=
  let wb := file.write_back print
  ({ wb.1 with previous_contents := print wb.1.document }, wb.2)

/-- `MutableTomlFile::roll_back`: reparse the baseline into the document,
rewrite the file from the baseline text (the written bytes are the second
component) and clear dirty; `none` models the early error when the baseline
no longer parses. -/
def MutableTomlFile.roll_back {Doc : Type} (parse : String → Option Doc)
    (file : MutableTomlFile Doc) : Option (MutableTomlFile Doc × String) :=
  (parse file.previous_contents).map (fun document =>
    ({ file with document := document, dirty := false }, file.previous_contents))

/-! ## Writing version requirements (`src/major_updates.rs`) -/

/-- Serialization of one prerelease identifier (`semver`'s `Display`). -/
def PreId.serial : PreId → String
  | .num n => toString n
  | .str s => s

/-- Serialization of a prerelease identifier list. -/
def preSerial (pre : List PreId) : String :=
  String.intercalate "." (pre.map PreId.serial)

/-- The operator glyph of a comparator (`semver`'s `Display`). -/
def Op.serial : Op → String
  | .exact => "="
  | .greater => ">"
  | .greaterEq => ">="
  | .less => "<"
  | .lessEq => "<="
  | .tilde => "~"
  | .caret => "^"
  | .wildcard => ""

/-- The version part after the major number in `Display for
semver::Comparator`. -/
def comparatorTail (c : Comparator) : String :=
  match c.minor with
  | some minor =>
    "." ++ toString minor ++
    (match c.patch with
     | some patch =>
       "." ++ toString patch ++ (if c.pre.isEmpty then "" else "-" ++ preSerial c.pre)
     | none => if c.op = Op.wildcard then ".*" else "")
  | none => if c.op = Op.wildcard then ".*" else ""

/-- `Display for semver::Comparator`: the operator glyph, the major number,
then the remaining components. -/
def Comparator.serial (c : Comparator) : String :=
  c.op.serial ++ toString c.major ++ comparatorTail c

/-- `Display for semver::VersionReq`: `*` for the empty requirement,
otherwise the comparators joined by a comma and space. -/
def VersionReq.serial (r : VersionReq) : String :=
  if r.comparators.isEmpty then "*"
  else String.intercalate ", " (r.comparators.map Comparator.serial)

/-- The string `write_version_to_memory` serializes: the canonical form,
with the leading caret removed when the requirement is exactly one caret
comparator. Rust's `out.starts_with('^')` / `out.remove(0)` test and drop the
first character, modelled on the character list of the string. -/
def caretElidedSerial (version : VersionReq) : String :=
  match version.comparators with
  | [single] =>
    if single.op = Op.caret then
      let out := version.serial
      match out.data with
      | '^' :: rest => ⟨rest⟩
      | _ => out
    else version.serial
  | _ => version.serial

/-- A mention of a direct dependency version in a manifest
(`DependencyMention`). -/
structure DependencyMention where
  manifest_idx : Nat
  toml_path : List String
  version : VersionReq

/-- `ManifestSet::write_version_to_memory`, acting on the document of the
mention's manifest: replace the string leaf at the mention's toml path
(keeping its decoration), after eliding a single caret, and update the
mention's recorded version. `none` models the panic when the path does not
resolve to a string value. -/
def write_version_to_memory (doc : TItem) (mention : DependencyMention)
    (version : VersionReq) : Option (TItem × DependencyMention) :=
  let as_string := caretElidedSerial version
  (doc.modifyAt mention.toml_path (fun item =>
    match item with
    | .strValue toml_version => some (.strValue ⟨as_string, toml_version.decor⟩)
    | _ => none)).map (fun doc' => (doc', { mention with version := version }))

/-! ## Predicates used by the specification claims -/

/-- A package id resolving to a local (path) package. -/
def IsLocalPackage (m : IndexedMetadata) (pid : PackageId) : Prop :=
  ∃ package, m.packages.lookup pid = some package ∧ package.source = none

instance (m : IndexedMetadata) (pid : PackageId) : Decidable (IsLocalPackage m pid) :=
  match h : m.packages.lookup pid with
  | some p =>
    if hs : p.source = none then isTrue ⟨p, h, hs⟩
    else isFalse (by rintro ⟨q, hq, hqs⟩; rw [h] at hq; cases hq; exact hs hqs)
  | none => isFalse (by rintro ⟨q, hq, _⟩; rw [h] at hq; cases hq)

/-- Every workspace default member is a local package. -/
def SeedsLocal (m : IndexedMetadata) : Prop :=
  ∀ pid ∈ m.get_workspace_default_members, IsLocalPackage m pid

instance (m : IndexedMetadata) : Decidable (SeedsLocal m) :=
  inferInstanceAs (Decidable (∀ pid ∈ m.get_workspace_default_members, IsLocalPackage m pid))

/-- Acyclicity of the resolve graph, witnessed by a rank function strictly
decreasing along every dependency edge. -/
def RankedAcyclic (m : IndexedMetadata) (rank : PackageId → Nat) : Prop :=
  ∀ pair ∈ m.resolve, ∀ dep ∈ pair.2.deps, rank dep.pkg < rank pair.1

instance (m : IndexedMetadata) (rank : PackageId → Nat) : Decidable (RankedAcyclic m rank) :=
  inferInstanceAs (Decidable (∀ pair ∈ m.resolve, ∀ dep ∈ pair.2.deps, rank dep.pkg < rank pair.1))

/-- One admissible dependency step at the level of the metadata graph: from a
node visited with workspace tag `ws` and accumulated run-at-build flag `r`,
over an edge with at least one admissible kind, to the child with its
accumulated flag (a build kind on the edge or a proc-macro parent sets it). -/
def StepRel (m : IndexedMetadata) (p : PackageId) (ws r : Bool)
    (c : PackageId) (rc : Bool) : Prop :=
  ∃ package node dep,
    m.packages.lookup p = some package ∧ m.resolve.lookup p = some node ∧
    dep ∈ node.deps ∧ c = dep.pkg ∧
    (∃ k ∈ dep.dep_kinds, ws = true ∨ k ≠ EdgeKind.development) ∧
    rc = ((r || packageIsProcMacro package) || dep.dep_kinds.contains EdgeKind.build)

/-- Admissible reach paths from a workspace default member, with the
accumulated run-at-build flag; development edges are admissible only on the
first step out of the workspace seed. -/
inductive Reach (m : IndexedMetadata) : PackageId → Bool → Bool → Prop where
  | seed (pid : PackageId) (hmem : pid ∈ m.get_workspace_default_members) :
      Reach m pid true false
  | step (p : PackageId) (ws r : Bool) (c : PackageId) (rc : Bool)
      (hreach : Reach m p ws r) (hstep : StepRel m p ws r c rc) : Reach m c false rc

/-- No two distinct package ids are registry packages with the same name and
version. (`cargo metadata` keys ids by name, version and source; the walker
keys entries by name and version only, so a collision — e.g. a git dependency
aliasing a registry version — merges unrelated nodes into one entry.) -/
def UniqueRegistryNV (m : IndexedMetadata) : Prop :=
  ∀ pp ∈ m.packages, ∀ qq ∈ m.packages,
    pp.2.source.isSome = true → qq.2.source.isSome = true →
    pp.2.name = qq.2.name → pp.2.version = qq.2.version → pp.1 = qq.1

instance (m : IndexedMetadata) : Decidable (UniqueRegistryNV m) :=
  inferInstanceAs (Decidable (∀ pp ∈ m.packages, ∀ qq ∈ m.packages,
    pp.2.source.isSome = true → qq.2.source.isSome = true →
    pp.2.name = qq.2.name → pp.2.version = qq.2.version → pp.1 = qq.1))

/-- Claim C5's right-hand side at one (name, version): some admissible walk
reach of a registry package carrying that name and version accumulates the
run-at-build flag (a build edge or proc-macro node on the way, the reached
package itself included). -/
def ReachRuns (m : IndexedMetadata) (name : String) (version : Version) : Prop :=
  ∃ pid package ws r, m.packages.lookup pid = some package ∧
    package.source.isSome = true ∧ package.name = name ∧ package.version = version ∧
    Reach m pid ws r ∧ (r || packageIsProcMacro package) = true

/-- Chains of admissible steps whose stepping-from nodes are all local
packages (so a chain leaving a registry node has length zero). -/
inductive LeadsC (m : IndexedMetadata) :
    PackageId → Bool → Bool → PackageId → Bool → Bool → Prop where
  | refl (p : PackageId) (ws r : Bool) : LeadsC m p ws r p ws r
  | step (p : PackageId) (ws r : Bool) (c : PackageId) (rc : Bool) (q : PackageId)
      (wsq rq : Bool) (hlocal : IsLocalPackage m p) (hstep : StepRel m p ws r c rc)
      (hrest : LeadsC m c false rc q wsq rq) : LeadsC m p ws r q wsq rq

/-- The workspace tag of a work item. -/
def todoWs (t : Todo) : Bool := t.incoming_edge.isWorkspace

/-- Entry coverage: when `p` is a registry package, its (name, version) entry
is recorded and its kind's run-at-build flag dominates the contribution `r`
(with the proc-macro override applied at `p`). -/
def EntCov (m : IndexedMetadata) (included : Included) (p : PackageId) (r : Bool) : Prop :=
  ∀ package, m.packages.lookup p = some package → package.source.isSome = true →
    ∃ e, includedLookup included package.name package.version = some e ∧
      ((r || packageIsProcMacro package) = true → e.kind.run_at_build = true)

/-- Pending coverage: some queued work item dominates the configuration and
leads to it through local packages. -/
def PendCov (m : IndexedMetadata) (todos : List Todo) (p : PackageId) (ws r : Bool) : Prop :=
  ∃ t ∈ todos, ∃ ws' r', LeadsC m t.pkg (todoWs t) t.kind.run_at_build p ws' r' ∧
    (ws = true → ws' = true) ∧ (r = true → r' = true)

/-- Completeness invariant, seed part: every local-intermediate chain out of
a workspace default member is pending-covered or already delivered. -/
def J1 (m : IndexedMetadata) (todos : List Todo) (included : Included) : Prop :=
  ∀ s ∈ m.get_workspace_default_members, ∀ p ws r, LeadsC m s true false p ws r →
    PendCov m todos p ws r ∨ EntCov m included p r

/-- Completeness invariant, relay part: every local-intermediate chain out of
a recorded registry entry (stepping off with the entry's accumulated flag) is
pending-covered or already delivered. -/
def J2 (m : IndexedMetadata) (todos : List Todo) (included : Included) : Prop :=
  ∀ a package e, m.packages.lookup a = some package → package.source.isSome = true →
    includedLookup included package.name package.version = some e →
    ∀ c rc, StepRel m a false e.kind.run_at_build c rc →
    ∀ p ws r, LeadsC m c false rc p ws r →
    PendCov m todos p ws r ∨ EntCov m included p r

/-- Soundness of a work item: it corresponds to an admissible reach. -/
def TodoSound (m : IndexedMetadata) (t : Todo) : Prop :=
  Reach m t.pkg (todoWs t) t.kind.run_at_build

/-- Soundness of the resolution state: a recorded run-at-build flag is
justified by some admissible reach. -/
def IncSound (m : IndexedMetadata) (included : Included) : Prop :=
  ∀ n v e, includedLookup included n v = some e → e.kind.run_at_build = true →
    ReachRuns m n v

/-- Sortedness and nonemptiness of an `Included` map as the `BTreeMap`s of
the source guarantee them. -/
def IncludedWF (included : Included) : Prop :=
  List.Chain' (fun a b => a.1 < b.1) included ∧
  ∀ p ∈ included, p.2 ≠ [] ∧ List.Chain' (fun a b : Version × IncludedDependencyVersion => a.1 < b.1) p.2

/-! ## Concrete instances for witnesses and counterexamples -/

def exVersion100 : Version := ⟨1, 0, 0, [], []⟩

def exVersion200 : Version := ⟨2, 0, 0, [], []⟩

def exIdentA : SpecificCrateIdent := ⟨"a", exVersion100⟩

def exEmptyMetadata : IndexedMetadata := ⟨none, [], [], [], [], none⟩

/-- A resolution whose filtered set contains one crate. -/
def exResolvedOldFiltered : Resolved := ⟨exEmptyMetadata, [], [exIdentA]⟩

/-- A resolution with an empty filtered set. -/
def exResolvedNewFiltered : Resolved := ⟨exEmptyMetadata, [], []⟩

def exReasonDep : IncludedDependencyReason :=
  ⟨DependencyKind.NORMAL, [], none, SpecificAnyCrateIdent.local' []⟩

/-- An edge whose only kind is a development kind. -/
def exDepDevOnly : NodeDep := ⟨7, [EdgeKind.development]⟩

/-- The requirement `1.*`: a single wildcard comparator. -/
def exReqWildcard : VersionReq := ⟨[⟨Op.wildcard, 1, none, none, []⟩]⟩

/-- The requirement `^1.2`. -/
def exReqCaret12 : VersionReq := ⟨[⟨Op.caret, 1, some 2, none, []⟩]⟩

/-- The requirement `^2.1.0`. -/
def exReqCaret210 : VersionReq := ⟨[⟨Op.caret, 2, some 1, some 0, []⟩]⟩

/-- The requirement `>=1.0, <2`. -/
def exReqRange : VersionReq :=
  ⟨[⟨Op.greaterEq, 1, some 0, none, []⟩, ⟨Op.less, 2, none, none, []⟩]⟩

def exEntryNormal : IncludedDependencyVersion := ⟨DependencyKind.NORMAL, false, false, [], []⟩

/-- A sorted old version map with three versions. -/
def exOldVersions : VersionMap :=
  [(⟨1, 0, 0, [], []⟩, exEntryNormal), (⟨1, 5, 0, [], []⟩, exEntryNormal),
   (⟨2, 0, 0, [], []⟩, exEntryNormal)]

/-- A local package with a plain library target. -/
def exPackageLocal (name : String) : Package :=
  ⟨name, exVersion100, none, [name, "Cargo.toml"], [⟨[TargetKind.lib]⟩]⟩

/-- A registry package with a plain library target. -/
def exPackageRegistry (name : String) : Package :=
  ⟨name, exVersion100, some "registry", [name, "Cargo.toml"], [⟨[TargetKind.lib]⟩]⟩

/-- A metadata whose single local default member depends on itself with a
normal edge: the walker never stops re-scheduling it. -/
def exMetaLoop : IndexedMetadata :=
  ⟨none, [(0, exPackageLocal "l")], [(0, ⟨[⟨0, [EdgeKind.normal]⟩]⟩)], [], [0], none⟩

/-- Claim C5's counterexample metadata: local member `a` (id 0), registry
default member `b` (id 1), local `l` (id 2), registry `c` (id 3); `a` depends
normally on `b` and `c`, `b` has a dev dependency on `l`, `l` a build
dependency on `c`. With default members `[b, a]` the walker pops `a` first,
reaches `b` as a dependency, and `b`'s workspace visit is cut off before its
dev edge is ever explored. -/
def exMetaCex : IndexedMetadata :=
  ⟨none,
   [(0, exPackageLocal "a"), (1, exPackageRegistry "b"), (2, exPackageLocal "l"),
    (3, exPackageRegistry "c")],
   [(0, ⟨[⟨1, [EdgeKind.normal]⟩, ⟨3, [EdgeKind.normal]⟩]⟩),
    (1, ⟨[⟨2, [EdgeKind.development]⟩]⟩),
    (2, ⟨[⟨3, [EdgeKind.build]⟩]⟩),
    (3, ⟨[]⟩)],
   [], [1, 0], some [1, 0]⟩

def exRankCex : PackageId → Nat := fun p => 3 - p

/-- The walker's resolution on `exMetaCex`. -/
def exIncCex : Included :=
  match resolve_platform 20 exMetaCex [] with
  | .done included => included
  | _ => []

/-- A second counterexample metadata for claim C5, this one with local
seeds: local member `a` (id 0) depends normally on registry `x` (id 3) and
has a dev dependency on local `l` (id 1); `l` has a build dependency on a
second registry package also named `x` at the same version (id 2, e.g. the
same crate pulled once from a registry and once from git); id 3 depends
normally on registry `c` (id 4). The two ids share one (name, version)
entry, so id 3's visit inherits id 2's run-at-build flag and passes it on
to `c`, which no admissible reach path justifies. -/
def exMetaCex2 : IndexedMetadata :=
  ⟨none,
   [(0, exPackageLocal "a"), (1, exPackageLocal "l"), (2, exPackageRegistry "x"),
    (3, exPackageRegistry "x"), (4, exPackageRegistry "c")],
   [(0, ⟨[⟨3, [EdgeKind.normal]⟩, ⟨1, [EdgeKind.development]⟩]⟩),
    (1, ⟨[⟨2, [EdgeKind.build]⟩]⟩),
    (2, ⟨[]⟩),
    (3, ⟨[⟨4, [EdgeKind.normal]⟩]⟩),
    (4, ⟨[]⟩)],
   [], [0], some [0]⟩

def exRankCex2 : PackageId → Nat :=
  fun p => if p = 0 then 3 else if p = 1 then 2 else if p = 4 then 0 else 1

/-- The walker's resolution on `exMetaCex2`. -/
def exIncCex2 : Included :=
  match resolve_platform 20 exMetaCex2 [] with
  | .done included => included
  | _ => []

/-- A small healthy workspace: local member `a` (id 0) with a build
dependency on registry `c` (id 3). -/
def exMetaW : IndexedMetadata :=
  ⟨none, [(0, exPackageLocal "a"), (3, exPackageRegistry "c")],
   [(0, ⟨[⟨3, [EdgeKind.build]⟩]⟩), (3, ⟨[]⟩)],
   [], [0], some [0]⟩

def exRankW : PackageId → Nat := fun p => if p = 0 then 1 else 0

/-- The resolution the walker computes on `exMetaW`. -/
def exIncW : Included :=
  match resolve_platform 9 exMetaW [] with
  | .done included => included
  | _ => []

/-- The entry recorded for `c` on `exMetaW`. -/
def exEntryW : IncludedDependencyVersion :=
  (includedLookup exIncW "c" exVersion100).getD exEntryNormal

/-- A well-formed resolution for the self-diff witness. -/
def exResolvedSelf : Resolved :=
  ⟨exEmptyMetadata, [("a", [(exVersion100, exEntryNormal)])], [exIdentA]⟩

/-- A one-package metadata for the filtered-resolution witness: registry
package `a` is known to the unfiltered metadata but absent from `included`. -/
def exMetaFull : IndexedMetadata :=
  ⟨none, [(5, exPackageRegistry "a")], [(5, ⟨[]⟩)], [], [5], none⟩

/-- A TOML document `[dependencies] serde = "1.0"` with decoration on the
version string. -/
def exDoc : TItem :=
  .table [("dependencies",
    .table [("serde", .strValue ⟨"1.0", ⟨" ", " # pinned"⟩⟩)])]

def exMention : DependencyMention :=
  ⟨0, ["dependencies", "serde"], exReqCaret12⟩

/-! ## Termination measure of the walk -/

/-- Claim C7's statement of termination: some amount of fuel makes the walk
finish (normally or by a panic — the loop, not the process, is at issue). -/
def WalkTerminates (m : IndexedMetadata) (included : Included) : Prop :=
  ∃ fuel, resolve_platform fuel m included ≠ WalkRes.outOfFuel

/-- The largest outgoing-edge count of any resolve node. -/
def maxDeps (m : IndexedMetadata) : Nat :=
  (m.resolve.map (fun pair => pair.2.deps.length)).foldr max 0

/-- The termination measure of a work queue under a rank function: work at a
rank-`r` node can spawn at most `maxDeps` items of smaller rank, so weighting
items by `(maxDeps + 1) ^ rank` strictly decreases at every step. -/
def todoMeasure (m : IndexedMetadata) (rank : PackageId → Nat) (todos : List Todo) : Nat :=
  (todos.map (fun t => (maxDeps m + 1) ^ rank t.pkg)).sum

/-- The work item the self-loop metadata reaches after two steps; processing
it reproduces it exactly, so the walk never terminates. -/
def exTodoLoop : Todo :=
  ⟨DependencyKind.NORMAL,
   .dependency ⟨DependencyKind.NORMAL, ["l", "Cargo.toml"], some (.local' ["l"]), .local' ["l"]⟩,
   0⟩

/-- The intermediate work item of the self-loop walk. -/
def exTodoLoop1 : Todo :=
  ⟨DependencyKind.NORMAL,
   .dependency ⟨DependencyKind.NORMAL, ["l", "Cargo.toml"], none, .local' ["l"]⟩,
   0⟩

/-! ## Shared helper lemmas -/

theorem lookup_mem {κ ν : Type} [DecidableEq κ] {l : List (κ × ν)} {k : κ} {v : ν}
    (h : l.lookup k = some v) : (k, v) ∈ l := by
  induction l with
  | nil => cases h
  | cons a rest ih =>
    rw [List.lookup_cons] at h
    by_cases hk : k = a.1
    · subst hk
      simp only [beq_self_eq_true, if_pos] at h
      cases h
      exact List.mem_cons_self _ _
    · have hbeq : (k == a.1) = false := by simpa using hk
      rw [hbeq] at h
      exact List.mem_cons_of_mem _ (ih h)

/-! ## Claim C1 — symmetric difference of the filtered sets -/

/-- Claim C1 is a code bug: `Diff::between` computes `filtered_removed` with
the same `in_right_set(&old.filtered, &new.filtered)` expression as
`filtered_added`, so it yields the new-minus-old difference instead of the
old-minus-new one the claim (and §4.4 of the spec) demands. At
`old.filtered = {"a" 1.0.0}`, `new.filtered = ∅` the claim requires
`filtered_removed = ["a" 1.0.0]`, but the code yields the empty list. -/
theorem c1_filtered_removed_not_symmetric :
    Diff.between exResolvedOldFiltered exResolvedNewFiltered =
      some { added := [], changed := [], removed := [], filtered_added := [],
             filtered_removed := [] } ∧
    exResolvedOldFiltered.filtered = [exIdentA] ∧
    exResolvedNewFiltered.filtered = [] := by
  refine ⟨rfl, rfl, rfl⟩

/-! ## Claim C2 — edge-kind admissibility in the walker -/

/-- Claim C2: during the walk, a development-kind edge is admissible exactly
when the current work item was reached as a workspace member, build and
normal kinds are always admissible, and an edge all of whose kinds are
inadmissible produces no child work item. -/
theorem c2_edge_kind_admissibility :
    (∀ incoming_edge kind, admissibleKind incoming_edge kind = true ↔
        (kind = EdgeKind.development → incoming_edge.isWorkspace = true)) ∧
    (∀ package_kind dep_parent incoming_edge dep,
        (∀ kind ∈ dep.dep_kinds, admissibleKind incoming_edge kind = false) →
        childTodoFor package_kind dep_parent incoming_edge dep = none) := by
  constructor
  · intro incoming_edge kind
    cases incoming_edge <;> cases kind <;>
      simp [admissibleKind, TodoFrom.isWorkspace]
  · intro package_kind dep_parent incoming_edge dep h
    have hfil : dep.dep_kinds.filter (fun kind => admissibleKind incoming_edge kind) = [] := by
      rw [List.filter_eq_nil_iff]
      intro k hk
      simp [h k hk]
    rw [childTodoFor.eq_def, hfil]
    rfl

/-- Witness for C2 at a concrete development-only edge reached through a
dependency. -/
theorem c2_witness :
    (∀ kind ∈ exDepDevOnly.dep_kinds,
        admissibleKind (TodoFrom.dependency exReasonDep) kind = false) ∧
    childTodoFor DependencyKind.NORMAL (SpecificAnyCrateIdent.local' [])
      (TodoFrom.dependency exReasonDep) exDepDevOnly = none :=
  ⟨by decide, c2_edge_kind_admissibility.2 _ _ _ _ (by decide)⟩

/-! ## Claim C8 — roll-back restores the opening bytes -/

theorem apply_edits_previous_contents {Doc : Type} (file : MutableTomlFile Doc)
    (edits : List Doc) :
    (file.apply_edits edits).previous_contents = file.previous_contents := by
  induction edits generalizing file with
  | nil => rfl
  | cons e es ih => exact ih _

/-- Claim C8: a manifest opened from contents `c`, mutated in memory any
number of times without a commit, rolls back to a clean state whose document
is the reparse of `c`, writing exactly the bytes `c` back to the file. -/
theorem c8_roll_back_restores {Doc : Type} (parse : String → Option Doc)
    (contents : String) (file0 : MutableTomlFile Doc) (edits : List Doc)
    (hopen : MutableTomlFile.open' parse contents = some file0) :
    ∃ doc, parse contents = some doc ∧
      (file0.apply_edits edits).roll_back parse =
        some ({ dirty := false, previous_contents := contents, document := doc },
              contents) := by
  rw [MutableTomlFile.open'] at hopen
  cases hparse : parse contents with
  | none => rw [hparse] at hopen; cases hopen
  | some doc =>
    rw [hparse] at hopen
    refine ⟨doc, rfl, ?_⟩
    have hfile0 : file0 = ⟨false, contents, doc⟩ := by
      cases hopen
      rfl
    subst hfile0
    have hprev := apply_edits_previous_contents
      (⟨false, contents, doc⟩ : MutableTomlFile Doc) edits
    rw [MutableTomlFile.roll_back, hprev, hparse]
    simp only [Option.map_some]
    congr 1

/-- Witness for C8: open `"a = 1"` with the identity parser, perform two
mutations, roll back. -/
theorem c8_witness :
    ∃ doc, some "a = 1" = some doc ∧
      ((⟨false, "a = 1", "a = 1"⟩ : MutableTomlFile String).apply_edits
          ["b = 2", "c = 3"]).roll_back some =
        some ({ dirty := false, previous_contents := "a = 1", document := doc },
              "a = 1") :=
  c8_roll_back_restores some "a = 1" ⟨false, "a = 1", "a = 1"⟩ ["b = 2", "c = 3"] rfl

/-! ## Claim C9 — writing a version requirement into a manifest -/

theorem tableSet_lookup {ν : Type} (entries : List (String × ν)) (k : String) (v v0 : ν)
    (h : entries.lookup k = some v0) : (tableSet entries k v).lookup k = some v := by
  induction entries with
  | nil => cases h
  | cons a rest ih =>
    rw [List.lookup_cons] at h
    by_cases hk : k = a.1
    · rw [tableSet, List.map_cons, if_pos hk.symm, List.lookup_cons]
      simp [hk]
    · have hbeq : (k == a.1) = false := by simpa using hk
      rw [hbeq] at h
      rw [tableSet, List.map_cons, if_neg (fun hh => hk hh.symm), List.lookup_cons, hbeq]
      exact ih h

theorem modifyAt_of_path_lookup (path : List String) :
    ∀ (doc it : TItem), doc.path_lookup path = some it →
    ∀ (f : TItem → Option TItem) (v : TItem), f it = some v →
    ∃ doc', doc.modifyAt path f = some doc' ∧ doc'.path_lookup path = some v := by
  induction path with
  | nil =>
    intro doc it h f v hf
    rw [TItem.path_lookup] at h
    cases h
    exact ⟨v, hf, rfl⟩
  | cons k rest ih =>
    intro doc it h f v hf
    rw [TItem.path_lookup] at h
    cases hget : doc.get k with
    | none => rw [hget] at h; cases h
    | some child =>
      rw [hget] at h
      rw [Option.some_bind] at h
      obtain ⟨child', hmod, hlook⟩ := ih child it h f v hf
      cases doc with
      | table entries =>
        rw [TItem.get] at hget
        refine ⟨.table (tableSet entries k child'), ?_, ?_⟩
        · rw [TItem.modifyAt, hget]
          rw [Option.some_bind, hmod]
          rfl
        · rw [TItem.path_lookup]
          rw [show (TItem.table (tableSet entries k child')).get k =
              (tableSet entries k child').lookup k from rfl]
          rw [tableSet_lookup entries k child' child hget]
          simpa using hlook
      | noItem => cases hget
      | strValue f0 => cases hget
      | otherValue => cases hget

theorem serial_single (version : VersionReq) (single : Comparator)
    (hcomp : version.comparators = [single]) :
    VersionReq.serial version = Comparator.serial single := by
  rw [VersionReq.serial, hcomp]
  rfl

theorem caretElided_single_caret (version : VersionReq) (single : Comparator)
    (hcomp : version.comparators = [single]) (hop : single.op = Op.caret) :
    "^" ++ caretElidedSerial version = VersionReq.serial version := by
  have hser : VersionReq.serial version =
      "^" ++ (toString single.major ++ comparatorTail single) := by
    rw [serial_single version single hcomp, Comparator.serial, hop]
    rw [String.append_assoc]
    rfl
  have hd : (VersionReq.serial version).data =
      '^' :: (toString single.major ++ comparatorTail single).data := by
    rw [hser, String.data_append]
    rfl
  have helide : caretElidedSerial version =
      toString single.major ++ comparatorTail single := by
    rw [caretElidedSerial, hcomp]
    simp only []
    rw [if_pos hop, hd]
    rfl
  rw [helide, hser]

theorem caretElided_other (version : VersionReq)
    (h : ∀ single, version.comparators = [single] → single.op ≠ Op.caret) :
    caretElidedSerial version = VersionReq.serial version := by
  rw [caretElidedSerial]
  split
  · rename_i single heq
    rw [if_neg (h single heq)]
  · rfl

/-- Claim C9: `write_version_to_memory` replaces the string leaf at the
mention's toml path with the serialized requirement, preserving the leaf's
decoration, and updates the mention's recorded version; the serialization is
the canonical one with the leading `^` elided exactly when the requirement is
a single caret comparator. -/
theorem c9_write_version_to_memory (doc : TItem) (mention : DependencyMention)
    (version : VersionReq) (f0 : FormattedString)
    (hleaf : doc.path_lookup mention.toml_path = some (.strValue f0)) :
    ∃ doc', write_version_to_memory doc mention version =
        some (doc', { mention with version := version }) ∧
      doc'.path_lookup mention.toml_path =
        some (.strValue ⟨caretElidedSerial version, f0.decor⟩) ∧
      (∀ single, version.comparators = [single] → single.op = Op.caret →
        "^" ++ caretElidedSerial version = VersionReq.serial version) ∧
      ((∀ single, version.comparators = [single] → single.op ≠ Op.caret) →
        caretElidedSerial version = VersionReq.serial version) := by
  obtain ⟨doc', hmod, hlook⟩ := modifyAt_of_path_lookup mention.toml_path doc
    (.strValue f0) hleaf
    (fun item =>
      match item with
      | TItem.strValue toml_version =>
        some (TItem.strValue ⟨caretElidedSerial version, toml_version.decor⟩)
      | _ => none)
    (.strValue ⟨caretElidedSerial version, f0.decor⟩) rfl
  refine ⟨doc', ?_, hlook, caretElided_single_caret version, caretElided_other version⟩
  have hrw : write_version_to_memory doc mention version =
      (doc.modifyAt mention.toml_path (fun item =>
        match item with
        | TItem.strValue toml_version =>
          some (TItem.strValue ⟨caretElidedSerial version, toml_version.decor⟩)
        | _ => none)).map
        (fun doc' => (doc', { mention with version := version })) := rfl
  rw [hrw, hmod]
  rfl

/-- Witness for C9 at the document `[dependencies] serde = "1.0"` and the
requirement `^1.2`: the written leaf is `"1.2"` with its decoration kept. -/
theorem c9_witness :
    exDoc.path_lookup exMention.toml_path =
      some (.strValue ⟨"1.0", ⟨" ", " # pinned"⟩⟩) ∧
    ∃ doc', write_version_to_memory exDoc exMention exReqCaret12 =
        some (doc', { exMention with version := exReqCaret12 }) ∧
      doc'.path_lookup exMention.toml_path =
        some (.strValue ⟨caretElidedSerial exReqCaret12, ⟨" ", " # pinned"⟩⟩) ∧
      (∀ single, exReqCaret12.comparators = [single] → single.op = Op.caret →
        "^" ++ caretElidedSerial exReqCaret12 = VersionReq.serial exReqCaret12) ∧
      ((∀ single, exReqCaret12.comparators = [single] → single.op ≠ Op.caret) →
        caretElidedSerial exReqCaret12 = VersionReq.serial exReqCaret12) :=
  ⟨rfl, c9_write_version_to_memory exDoc exMention exReqCaret12 ⟨"1.0", ⟨" ", " # pinned"⟩⟩ rfl⟩

/-! ## Claim C3 — the major-update predicate -/

theorem majorLoop_some_true_iff (version stripped : Version) :
    ∀ (cs : List Comparator), (∀ c ∈ cs, c.op ≠ Op.wildcard) →
    (majorLoop version stripped cs = some true ↔
      ((∀ c ∈ cs, (c.op = Op.less ∨ c.op = Op.lessEq) →
          implicitVersion c version ≠ stripped) ∧
       (∀ c ∈ cs, (c.op = Op.exact ∨ c.op = Op.greater ∨ c.op = Op.greaterEq ∨
          c.op = Op.tilde ∨ c.op = Op.caret) →
          ¬ stripped ≤ implicitVersion c version))) := by
  intro cs
  induction cs with
  | nil =>
    intro _
    simp [majorLoop]
  | cons c rest ih =>
    intro hw
    have ihr := ih (fun x hx => hw x (List.mem_cons_of_mem _ hx))
    simp only [List.forall_mem_cons]
    cases hcop : c.op with
    | wildcard => exact absurd hcop (hw c (List.mem_cons_self _ _))
    | less =>
      simp only [majorLoop, hcop]
      by_cases heq : implicitVersion c version = stripped
      · simp only [if_pos heq]
        constructor
        · intro h
          cases h
        · rintro ⟨⟨h3c, _⟩, _⟩
          exact absurd heq (h3c (by simp))
      · simp only [if_neg heq, ihr]
        constructor
        · rintro ⟨h3, h4⟩
          exact ⟨⟨fun _ => heq, h3⟩, ⟨fun h => by cases h <;> simp_all, h4⟩⟩
        · rintro ⟨⟨_, h3⟩, ⟨_, h4⟩⟩
          exact ⟨h3, h4⟩
    | lessEq =>
      simp only [majorLoop, hcop]
      by_cases heq : implicitVersion c version = stripped
      · simp only [if_pos heq]
        constructor
        · intro h
          cases h
        · rintro ⟨⟨h3c, _⟩, _⟩
          exact absurd heq (h3c (by simp))
      · simp only [if_neg heq, ihr]
        constructor
        · rintro ⟨h3, h4⟩
          exact ⟨⟨fun _ => heq, h3⟩, ⟨fun h => by cases h <;> simp_all, h4⟩⟩
        · rintro ⟨⟨_, h3⟩, ⟨_, h4⟩⟩
          exact ⟨h3, h4⟩
    | exact =>
      simp only [majorLoop, hcop]
      by_cases hle : stripped ≤ implicitVersion c version
      · simp only [if_pos hle]
        constructor
        · intro h
          cases h
        · rintro ⟨_, ⟨h4c, _⟩⟩
          exact absurd hle (h4c (by simp))
      · simp only [if_neg hle, ihr]
        constructor
        · rintro ⟨h3, h4⟩
          exact ⟨⟨fun h => by cases h <;> simp_all, h3⟩, ⟨fun _ => hle, h4⟩⟩
        · rintro ⟨⟨_, h3⟩, ⟨_, h4⟩⟩
          exact ⟨h3, h4⟩
    | greater =>
      simp only [majorLoop, hcop]
      by_cases hle : stripped ≤ implicitVersion c version
      · simp only [if_pos hle]
        constructor
        · intro h
          cases h
        · rintro ⟨_, ⟨h4c, _⟩⟩
          exact absurd hle (h4c (by simp))
      · simp only [if_neg hle, ihr]
        constructor
        · rintro ⟨h3, h4⟩
          exact ⟨⟨fun h => by cases h <;> simp_all, h3⟩, ⟨fun _ => hle, h4⟩⟩
        · rintro ⟨⟨_, h3⟩, ⟨_, h4⟩⟩
          exact ⟨h3, h4⟩
    | greaterEq =>
      simp only [majorLoop, hcop]
      by_cases hle : stripped ≤ implicitVersion c version
      · simp only [if_pos hle]
        constructor
        · intro h
          cases h
        · rintro ⟨_, ⟨h4c, _⟩⟩
          exact absurd hle (h4c (by simp))
      · simp only [if_neg hle, ihr]
        constructor
        · rintro ⟨h3, h4⟩
          exact ⟨⟨fun h => by cases h <;> simp_all, h3⟩, ⟨fun _ => hle, h4⟩⟩
        · rintro ⟨⟨_, h3⟩, ⟨_, h4⟩⟩
          exact ⟨h3, h4⟩
    | tilde =>
      simp only [majorLoop, hcop]
      by_cases hle : stripped ≤ implicitVersion c version
      · simp only [if_pos hle]
        constructor
        · intro h
          cases h
        · rintro ⟨_, ⟨h4c, _⟩⟩
          exact absurd hle (h4c (by simp))
      · simp only [if_neg hle, ihr]
        constructor
        · rintro ⟨h3, h4⟩
          exact ⟨⟨fun h => by cases h <;> simp_all, h3⟩, ⟨fun _ => hle, h4⟩⟩
        · rintro ⟨⟨_, h3⟩, ⟨_, h4⟩⟩
          exact ⟨h3, h4⟩
    | caret =>
      simp only [majorLoop, hcop]
      by_cases hle : stripped ≤ implicitVersion c version
      · simp only [if_pos hle]
        constructor
        · intro h
          cases h
        · rintro ⟨_, ⟨h4c, _⟩⟩
          exact absurd hle (h4c (by simp))
      · simp only [if_neg hle, ihr]
        constructor
        · rintro ⟨h3, h4⟩
          exact ⟨⟨fun h => by cases h <;> simp_all, h3⟩, ⟨fun _ => hle, h4⟩⟩
        · rintro ⟨⟨_, h3⟩, ⟨_, h4⟩⟩
          exact ⟨h3, h4⟩

/-- Claim C3 (amended): for every requirement none of whose comparators uses
the wildcard operator, `is_major_update_for` returns true exactly when the
requirement does not match the version, the version has no prerelease, no
less / less-or-equal comparator's implicit version (minor and patch filled
from the candidate, prerelease and build empty) equals the stripped
candidate, and no exact / greater / greater-or-equal / tilde / caret
comparator's implicit version is at least the stripped candidate. The
wildcard restriction is forced: on a non-matching wildcard comparator the
source hits `unreachable!` (see the counterexample). -/
theorem c3_is_major_update_iff (requirement : VersionReq) (version : Version)
    (hw : ∀ c ∈ requirement.comparators, c.op ≠ Op.wildcard) :
    is_major_update_for requirement version = some true ↔
      (reqMatches requirement version = false ∧
       version.pre = [] ∧
       (∀ c ∈ requirement.comparators, (c.op = Op.less ∨ c.op = Op.lessEq) →
         implicitVersion c version ≠ strippedOf version) ∧
       (∀ c ∈ requirement.comparators,
         (c.op = Op.exact ∨ c.op = Op.greater ∨ c.op = Op.greaterEq ∨
          c.op = Op.tilde ∨ c.op = Op.caret) →
         ¬ strippedOf version ≤ implicitVersion c version)) := by
  rw [is_major_update_for]
  by_cases hm : reqMatches requirement version = true
  · rw [if_pos hm]
    simp [hm]
  · rw [if_neg hm]
    have hm' : reqMatches requirement version = false := by
      simpa using hm
    by_cases hp : version.pre = []
    · have hpe : (!version.pre.isEmpty) = false := by
        simp [hp]
      rw [if_neg (by simp [hpe])]
      rw [majorLoop_some_true_iff version (strippedOf version) requirement.comparators hw]
      simp [hm', hp]
    · have hpe : (!version.pre.isEmpty) = true := by
        simpa using hp
      rw [if_pos (by simp [hpe])]
      simp [hp]

/-- C3 counterexample: at the requirement `1.*` (one wildcard comparator)
and the version `2.0.0`, the requirement does not match, the version has no
prerelease, and the two comparator conditions hold vacuously — the claim
demands a true result — yet `is_major_update_for` hits `unreachable!`
(modelled as `none`) instead of returning true. -/
theorem c3_counterexample :
    reqMatches exReqWildcard exVersion200 = false ∧
    exVersion200.pre = [] ∧
    (∀ c ∈ exReqWildcard.comparators, (c.op = Op.less ∨ c.op = Op.lessEq) →
      implicitVersion c exVersion200 ≠ strippedOf exVersion200) ∧
    (∀ c ∈ exReqWildcard.comparators,
      (c.op = Op.exact ∨ c.op = Op.greater ∨ c.op = Op.greaterEq ∨
       c.op = Op.tilde ∨ c.op = Op.caret) →
      ¬ strippedOf exVersion200 ≤ implicitVersion c exVersion200) ∧
    is_major_update_for exReqWildcard exVersion200 ≠ some true ∧
    is_major_update_for exReqWildcard exVersion200 = none := by
  refine ⟨rfl, rfl, ?_, ?_, by decide, rfl⟩
  · intro c hc hop
    simp only [exReqWildcard, List.mem_singleton] at hc
    subst hc
    cases hop <;> simp_all
  · intro c hc hop
    simp only [exReqWildcard, List.mem_singleton] at hc
    subst hc
    rcases hop with h | h | h | h | h <;> simp_all

/-- Witness for C3 at the wildcard-free requirement `^1.2` and version
`2.0.0`. -/
theorem c3_witness :
    (∀ c ∈ exReqCaret12.comparators, c.op ≠ Op.wildcard) ∧
    (is_major_update_for exReqCaret12 exVersion200 = some true ↔
      (reqMatches exReqCaret12 exVersion200 = false ∧
       exVersion200.pre = [] ∧
       (∀ c ∈ exReqCaret12.comparators, (c.op = Op.less ∨ c.op = Op.lessEq) →
         implicitVersion c exVersion200 ≠ strippedOf exVersion200) ∧
       (∀ c ∈ exReqCaret12.comparators,
         (c.op = Op.exact ∨ c.op = Op.greater ∨ c.op = Op.greaterEq ∨
          c.op = Op.tilde ∨ c.op = Op.caret) →
         ¬ strippedOf exVersion200 ≤ implicitVersion c exVersion200))) :=
  ⟨by decide, c3_is_major_update_iff exReqCaret12 exVersion200 (by decide)⟩

/-! ## Claim C4 — selection of the closest old version -/

theorem chain'_fst_lt_pairwise {α β : Type} [LinearOrder α] {l : List (α × β)}
    (h : List.Chain' (fun a b : α × β => a.1 < b.1) l) :
    List.Pairwise (fun a b : α × β => a.1 < b.1) l := by
  haveI : IsTrans (α × β) (fun a b : α × β => a.1 < b.1) :=
    ⟨fun _ _ _ h1 h2 => lt_trans h1 h2⟩
  exact List.chain'_iff_pairwise.mp h

theorem find_ge_min {α β : Type} [LinearOrder α] (v : α) :
    ∀ (l : List (α × β)) (c : α × β),
    List.Chain' (fun a b : α × β => a.1 < b.1) l →
    l.find? (fun p => decide (v ≤ p.1)) = some c →
    c ∈ l ∧ v ≤ c.1 ∧ ∀ q ∈ l, v ≤ q.1 → c.1 ≤ q.1 := by
  intro l
  induction l with
  | nil =>
    intro c _ h
    cases h
  | cons a rest ih =>
    intro c hch hf
    by_cases ha : v ≤ a.1
    · rw [List.find?_cons_of_pos _ (by simpa using ha)] at hf
      cases hf
      refine ⟨List.mem_cons_self _ _, ha, ?_⟩
      intro q hq _
      rcases List.mem_cons.mp hq with rfl | hq'
      · exact le_refl _
      · exact le_of_lt ((List.pairwise_cons.mp (chain'_fst_lt_pairwise hch)).1 q hq')
    · rw [List.find?_cons_of_neg _ (by simpa using ha)] at hf
      obtain ⟨hmem, hle, hmin⟩ := ih c hch.tail hf
      refine ⟨List.mem_cons_of_mem _ hmem, hle, ?_⟩
      intro q hq hvq
      rcases List.mem_cons.mp hq with rfl | hq'
      · exact absurd hvq ha
      · exact hmin q hq' hvq

theorem getLast_max {α β : Type} [LinearOrder α] :
    ∀ (l : List (α × β)) (c : α × β),
    List.Chain' (fun a b : α × β => a.1 < b.1) l →
    l.getLast? = some c →
    c ∈ l ∧ ∀ q ∈ l, q.1 ≤ c.1 := by
  intro l
  induction l with
  | nil =>
    intro c _ h
    cases h
  | cons a rest ih =>
    intro c hch hl
    cases rest with
    | nil =>
      cases hl
      exact ⟨List.mem_cons_self _ _, by
        intro q hq
        rcases List.mem_cons.mp hq with rfl | hq'
        · exact le_refl _
        · cases hq'⟩
    | cons b rest' =>
      rw [List.getLast?_cons_cons] at hl
      obtain ⟨hmem, hmax⟩ := ih c hch.tail hl
      refine ⟨List.mem_cons_of_mem _ hmem, ?_⟩
      intro q hq
      rcases List.mem_cons.mp hq with rfl | hq'
      · exact le_of_lt ((List.pairwise_cons.mp (chain'_fst_lt_pairwise hch)).1 c hmem)
      · exact hmax q hq'

theorem compare_closest (name : String) (old : VersionMap) (new_version : Version)
    (new : IncludedDependencyVersion) (closest : Version × IncludedDependencyVersion)
    (hsel : (old.find? (fun p => decide (new_version ≤ p.1))).orElse
      (fun _ => old.getLast?) = some closest) :
    ∃ c, Diff.compare name old new_version new = some c ∧
      c.closest_different_old_version =
        (if closest.1 ≠ new_version then some closest.1 else none) :=
  ⟨_, by rw [Diff.compare, hsel]; rfl, rfl⟩

/-- Claim C4: in `Diff::compare`, the selected old version is the smallest
old version at least the new version when one exists, and otherwise the
largest old version; and `closest_different_old_version` is emitted exactly
when the selected version differs from the new version. The hypotheses state
what the source's `BTreeMap` guarantees: the old version map is sorted and
nonempty. -/
theorem c4_closest_old_version (name : String) (old : VersionMap) (new_version : Version)
    (new : IncludedDependencyVersion)
    (hsorted : List.Chain' (fun a b : Version × IncludedDependencyVersion => a.1 < b.1) old)
    (hne : old ≠ []) :
    ∃ closest c,
      (old.find? (fun p => decide (new_version ≤ p.1))).orElse
        (fun _ => old.getLast?) = some closest ∧
      Diff.compare name old new_version new = some c ∧
      closest ∈ old ∧
      ((∃ p ∈ old, new_version ≤ p.1) →
        new_version ≤ closest.1 ∧ ∀ q ∈ old, new_version ≤ q.1 → closest.1 ≤ q.1) ∧
      ((¬ ∃ p ∈ old, new_version ≤ p.1) → ∀ q ∈ old, q.1 ≤ closest.1) ∧
      c.closest_different_old_version =
        (if closest.1 ≠ new_version then some closest.1 else none) ∧
      (c.closest_different_old_version.isSome ↔ closest.1 ≠ new_version) := by
  cases hf : old.find? (fun p => decide (new_version ≤ p.1)) with
  | some p =>
    have hsel : (old.find? (fun p => decide (new_version ≤ p.1))).orElse
        (fun _ => old.getLast?) = some p := by
      rw [hf]
      rfl
    obtain ⟨hmem, hle, hmin⟩ := find_ge_min new_version old p hsorted hf
    obtain ⟨c, hc, hfield⟩ := compare_closest name old new_version new p hsel
    refine ⟨p, c, by rfl, hc, hmem, fun _ => ⟨hle, hmin⟩,
      fun habs => absurd ⟨p, hmem, hle⟩ habs, hfield, ?_⟩
    rw [hfield]
    by_cases hne' : p.1 ≠ new_version <;> simp [hne']
  | none =>
    have hnone : ∀ q ∈ old, ¬ new_version ≤ q.1 := by
      intro q hq
      have := List.find?_eq_none.mp hf q hq
      simpa using this
    cases hl : old.getLast? with
    | none =>
      exact absurd (List.getLast?_eq_none_iff.mp hl) hne
    | some p =>
      have hsel : (old.find? (fun p => decide (new_version ≤ p.1))).orElse
          (fun _ => old.getLast?) = some p := by
        rw [hf]
        simpa using hl
      obtain ⟨hmem, hmax⟩ := getLast_max old p hsorted hl
      obtain ⟨c, hc, hfield⟩ := compare_closest name old new_version new p hsel
      refine ⟨p, c, by rfl, hc, hmem, ?_, fun _ => hmax, hfield, ?_⟩
      · rintro ⟨q, hq, hvq⟩
        exact absurd hvq (hnone q hq)
      · rw [hfield]
        by_cases hne' : p.1 ≠ new_version <;> simp [hne']

/-- Witness for C4 at a three-version old map and the new version `1.2.0`
(the selected version is `1.5.0`, the smallest one at least `1.2.0`). -/
theorem c4_witness :
    List.Chain' (fun a b : Version × IncludedDependencyVersion => a.1 < b.1) exOldVersions ∧
    ∃ closest c,
      (exOldVersions.find? (fun p => decide ((⟨1, 2, 0, [], []⟩ : Version) ≤ p.1))).orElse
        (fun _ => exOldVersions.getLast?) = some closest ∧
      Diff.compare "x" exOldVersions ⟨1, 2, 0, [], []⟩ exEntryNormal = some c ∧
      closest ∈ exOldVersions ∧
      ((∃ p ∈ exOldVersions, (⟨1, 2, 0, [], []⟩ : Version) ≤ p.1) →
        (⟨1, 2, 0, [], []⟩ : Version) ≤ closest.1 ∧
        ∀ q ∈ exOldVersions, (⟨1, 2, 0, [], []⟩ : Version) ≤ q.1 → closest.1 ≤ q.1) ∧
      ((¬ ∃ p ∈ exOldVersions, (⟨1, 2, 0, [], []⟩ : Version) ≤ p.1) →
        ∀ q ∈ exOldVersions, q.1 ≤ closest.1) ∧
      c.closest_different_old_version =
        (if closest.1 ≠ (⟨1, 2, 0, [], []⟩ : Version) then some closest.1 else none) ∧
      (c.closest_different_old_version.isSome ↔ closest.1 ≠ (⟨1, 2, 0, [], []⟩ : Version)) :=
  ⟨by simp only [exOldVersions, List.chain'_cons, List.chain'_singleton, and_true]
      exact ⟨by decide, by decide⟩,
   c4_closest_old_version "x" exOldVersions ⟨1, 2, 0, [], []⟩ exEntryNormal
    (by simp only [exOldVersions, List.chain'_cons, List.chain'_singleton, and_true]
        exact ⟨by decide, by decide⟩)
    (by decide)⟩

/-! ## Claim C10 — the filtered-resolution precondition and contents -/

theorem mem_insertSortedSet {α : Type} [LinearOrder α] (x y : α) :
    ∀ (l : List α), x ∈ insertSortedSet y l ↔ x = y ∨ x ∈ l := by
  intro l
  induction l with
  | nil => simp [insertSortedSet]
  | cons z zs ih =>
    rw [insertSortedSet]
    by_cases h1 : y < z
    · rw [if_pos h1]
      simp [List.mem_cons]
    · by_cases h2 : y = z
      · subst h2
        rw [if_neg h1, if_pos rfl]
        constructor
        · intro h
          exact Or.inr h
        · rintro (rfl | h)
          · exact List.mem_cons_self _ _
          · exact h
      · rw [if_neg h1, if_neg h2]
        rw [List.mem_cons, ih, List.mem_cons]
        tauto

theorem filtered_foldl_mem (included : Included) (root : Utf8Path) :
    ∀ (packages : List (PackageId × Package)) (init : List SpecificCrateIdent)
      (sci : SpecificCrateIdent),
    (sci ∈ packages.foldl (fun filtered pair =>
      match AnyCrateIdent.from_package root pair.2 with
      | .cratesIo name =>
        let was_included := (included.lookup name).elim false
          (fun versions => (versions.lookup pair.2.version).isSome)
        if !was_included then insertSortedSet ⟨name, pair.2.version⟩ filtered else filtered
      | .local' _ => filtered) init ↔
    (sci ∈ init ∨ ∃ pair ∈ packages, pair.2.source.isSome = true ∧
      sci = ⟨pair.2.name, pair.2.version⟩ ∧
      includedLookup included pair.2.name pair.2.version = none)) := by
  intro packages
  induction packages with
  | nil =>
    intro init sci
    simp
  | cons pr rest ih =>
    intro init sci
    rw [List.foldl_cons, ih]
    by_cases hsrc : pr.2.source.isSome = true
    · rw [show AnyCrateIdent.from_package root pr.2 = .cratesIo pr.2.name by
        rw [AnyCrateIdent.from_package, if_pos hsrc]]
      cases hlk : includedLookup included pr.2.name pr.2.version with
      | none =>
        have hwi : ((included.lookup pr.2.name).elim false
            (fun versions => (versions.lookup pr.2.version).isSome)) = false := by
          rw [includedLookup] at hlk
          cases hn : included.lookup pr.2.name with
          | none => rfl
          | some vm =>
            rw [hn] at hlk
            simp only [Option.some_bind] at hlk
            simp [Option.elim, hlk]
        simp only [hwi, Bool.not_false, if_true, mem_insertSortedSet]
        constructor
        · rintro (⟨h | h⟩ | h)
          · exact Or.inr ⟨pr, List.mem_cons_self _ _, hsrc, h, hlk⟩
          · exact Or.inl h
          · obtain ⟨pair, hp, h1, h2, h3⟩ := h
            exact Or.inr ⟨pair, List.mem_cons_of_mem _ hp, h1, h2, h3⟩
        · rintro (h | ⟨pair, hp, h1, h2, h3⟩)
          · exact Or.inl (Or.inr h)
          · rcases List.mem_cons.mp hp with rfl | hp'
            · exact Or.inl (Or.inl h2)
            · exact Or.inr ⟨pair, hp', h1, h2, h3⟩
      | some e =>
        have hwi : ((included.lookup pr.2.name).elim false
            (fun versions => (versions.lookup pr.2.version).isSome)) = true := by
          rw [includedLookup] at hlk
          cases hn : included.lookup pr.2.name with
          | none => rw [hn] at hlk; cases hlk
          | some vm =>
            rw [hn] at hlk
            simp only [Option.some_bind] at hlk
            simp [Option.elim, hlk]
        simp only [hwi, Bool.not_true, Bool.false_eq_true, if_false]
        constructor
        · rintro (h | h)
          · exact Or.inl h
          · obtain ⟨pair, hp, h1, h2, h3⟩ := h
            exact Or.inr ⟨pair, List.mem_cons_of_mem _ hp, h1, h2, h3⟩
        · rintro (h | ⟨pair, hp, h1, h2, h3⟩)
          · exact Or.inl h
          · rcases List.mem_cons.mp hp with rfl | hp'
            · rw [h3] at hlk
              cases hlk
            · exact Or.inr ⟨pair, hp', h1, h2, h3⟩
    · rw [show AnyCrateIdent.from_package root pr.2 =
          .local' (shorten_path_relative_to root pr.2.manifest_path.dropLast) by
        rw [AnyCrateIdent.from_package, if_neg (by simpa using hsrc)]]
      constructor
      · rintro (h | h)
        · exact Or.inl h
        · obtain ⟨pair, hp, h1, h2, h3⟩ := h
          exact Or.inr ⟨pair, List.mem_cons_of_mem _ hp, h1, h2, h3⟩
      · rintro (h | ⟨pair, hp, h1, h2, h3⟩)
        · exact Or.inl h
        · rcases List.mem_cons.mp hp with rfl | hp'
          · exact absurd h1 hsrc
          · exact Or.inr ⟨pair, hp', h1, h2, h3⟩

/-- Claim C10: `resolve_filtered_from_indexed` panics (assertion) on any
platform-filtered metadata; on unfiltered metadata it totally computes
`filtered` as exactly the registry (name, version) pairs of the metadata
whose entry is absent from `included` — hence `filtered` and `included` are
disjoint. -/
theorem c10_resolve_filtered_from_indexed (included : Included) (m : IndexedMetadata) :
    (m.platform ≠ none → resolve_filtered_from_indexed included m = none) ∧
    (m.platform = none →
      ∃ r, resolve_filtered_from_indexed included m = some r ∧
        r.included = included ∧ r.full_metadata = m ∧
        (∀ sci : SpecificCrateIdent, sci ∈ r.filtered ↔
          (∃ pair ∈ m.packages, pair.2.source.isSome = true ∧
            sci = ⟨pair.2.name, pair.2.version⟩ ∧
            includedLookup included pair.2.name pair.2.version = none)) ∧
        (∀ sci ∈ r.filtered, includedLookup included sci.name sci.version = none)) := by
  constructor
  · intro h
    rw [resolve_filtered_from_indexed, if_pos h]
  · intro h
    have hchar := filtered_foldl_mem included m.workspace_root m.packages []
    rw [resolve_filtered_from_indexed, if_neg (by simp [h])]
    refine ⟨_, rfl, rfl, rfl, ?_, ?_⟩
    · intro sci
      rw [hchar sci]
      simp
    · intro sci hsci
      rw [hchar sci] at hsci
      rcases hsci with h' | ⟨pair, _, _, h2, h3⟩
      · cases h'
      · rw [h2]
        exact h3

/-- Witness for C10 on a one-package unfiltered metadata whose registry
package is absent from the empty `included`. -/
theorem c10_witness :
    exMetaFull.platform = none ∧
    ∃ r, resolve_filtered_from_indexed [] exMetaFull = some r ∧
      r.included = [] ∧ r.full_metadata = exMetaFull ∧
      (∀ sci : SpecificCrateIdent, sci ∈ r.filtered ↔
        (∃ pair ∈ exMetaFull.packages, pair.2.source.isSome = true ∧
          sci = ⟨pair.2.name, pair.2.version⟩ ∧
          includedLookup [] pair.2.name pair.2.version = none)) ∧
      (∀ sci ∈ r.filtered, includedLookup [] sci.name sci.version = none) :=
  ⟨rfl, (c10_resolve_filtered_from_indexed [] exMetaFull).2 rfl⟩

/-! ## Claim C6 — the self-diff is empty -/

theorem lookup_isSome_of_mem {κ ν : Type} [DecidableEq κ] :
    ∀ (l : List (κ × ν)) (k : κ) (v : ν), (k, v) ∈ l → (l.lookup k).isSome = true := by
  intro l
  induction l with
  | nil =>
    intro k v h
    cases h
  | cons a rest ih =>
    intro k v h
    rw [List.lookup_cons]
    by_cases hk : k = a.1
    · simp [hk]
    · have hbeq : (k == a.1) = false := by simpa using hk
      rw [hbeq]
      rcases List.mem_cons.mp h with rfl | h'
      · exact absurd rfl hk
      · exact ih k v h'

theorem lookup_eq_of_mem_nodup {κ ν : Type} [DecidableEq κ] :
    ∀ (l : List (κ × ν)) (k : κ) (v : ν),
    (l.map Prod.fst).Nodup → (k, v) ∈ l → l.lookup k = some v := by
  intro l
  induction l with
  | nil =>
    intro k v _ h
    cases h
  | cons a rest ih =>
    intro k v hnd h
    rw [List.lookup_cons]
    rw [List.map_cons, List.nodup_cons] at hnd
    rcases List.mem_cons.mp h with rfl | h'
    · simp
    · have hne : k ≠ a.1 := fun hkk =>
        hnd.1 (hkk ▸ List.mem_map.mpr ⟨(k, v), h', rfl⟩)
      have hbeq : (k == a.1) = false := by simpa using hne
      rw [hbeq]
      exact ih k v hnd.2 h'

theorem nodup_fst_of_chain' {κ ν : Type} [LinearOrder κ] {l : List (κ × ν)}
    (h : List.Chain' (fun a b : κ × ν => a.1 < b.1) l) : (l.map Prod.fst).Nodup := by
  have hp : l.Pairwise (fun a b : κ × ν => a.1 < b.1) := chain'_fst_lt_pairwise h
  have hm : (l.map Prod.fst).Pairwise (· < ·) :=
    (List.pairwise_map).mpr hp
  exact hm.imp (fun hlt => ne_of_lt hlt)

theorem filter_not_contains_self {α : Type} [DecidableEq α] (l : List α) :
    l.filter (fun i => !l.contains i) = [] := by
  rw [List.filter_eq_nil_iff]
  intro x hx
  simp [hx]

theorem mapM_of_forall_some {α β : Type} (f : α → Option β) (p : β → Prop) :
    ∀ (l : List α), (∀ a ∈ l, ∃ b, f a = some b ∧ p b) →
    ∃ l', l.mapM f = some l' ∧ ∀ b ∈ l', p b := by
  intro l
  induction l with
  | nil =>
    intro _
    exact ⟨[], rfl, by simp⟩
  | cons a as ih =>
    intro h
    obtain ⟨b, hfb, hpb⟩ := h a (List.mem_cons_self _ _)
    obtain ⟨l', hml, hpl⟩ := ih (fun x hx => h x (List.mem_cons_of_mem _ hx))
    refine ⟨b :: l', ?_, ?_⟩
    · rw [List.mapM_cons, hfb, hml]
      rfl
    · intro x hx
      rcases List.mem_cons.mp hx with rfl | hx'
      · exact hpb
      · exact hpl x hx'

theorem find_self_of_chain' (vm : VersionMap) (v : Version)
    (info : IncludedDependencyVersion)
    (hch : List.Chain' (fun a b : Version × IncludedDependencyVersion => a.1 < b.1) vm)
    (hmem : (v, info) ∈ vm) :
    vm.find? (fun p => decide (v ≤ p.1)) = some (v, info) := by
  induction vm with
  | nil => cases hmem
  | cons a rest ih =>
    by_cases ha : v ≤ a.1
    · rw [List.find?_cons_of_pos _ (by simpa using ha)]
      rcases List.mem_cons.mp hmem with h | h'
      · rw [h]
      · have hlt : a.1 < v :=
          (List.pairwise_cons.mp (chain'_fst_lt_pairwise hch)).1 (v, info) h'
        exact absurd ha (not_le_of_lt hlt)
    · rw [List.find?_cons_of_neg _ (by simpa using ha)]
      rcases List.mem_cons.mp hmem with h | h'
      · exact absurd (h ▸ le_refl v : v ≤ a.1) ha
      · exact ih hch.tail h'

theorem compare_self (name : String) (vm : VersionMap) (v : Version)
    (info : IncludedDependencyVersion)
    (hch : List.Chain' (fun a b : Version × IncludedDependencyVersion => a.1 < b.1) vm)
    (hmem : (v, info) ∈ vm) :
    ∃ c, Diff.compare name vm v info = some c ∧ c.requires_review = false := by
  have hsel : (vm.find? (fun p => decide (v ≤ p.1))).orElse (fun _ => vm.getLast?) =
      some (v, info) := by
    rw [find_self_of_chain' vm v info hch hmem]
    rfl
  refine ⟨_, by rw [Diff.compare, hsel]; rfl, ?_⟩
  rw [Comparison.requires_review]
  simp only [ne_eq, not_true_eq_false, if_false, Option.isSome_none, Bool.false_or,
    Bool.and_not_self, Bool.not_and_self, if_neg, Bool.false_eq_true,
    filter_not_contains_self, List.map_nil, List.isEmpty_nil, Bool.not_true,
    Bool.or_self, Bool.or_false]

/-- Claim C6: the diff of a resolution against itself is empty in all five
output lists. The hypothesis states what the source's `BTreeMap`s guarantee:
the included map is sorted by name, and every inner version map is sorted and
nonempty. -/
theorem c6_diff_between_self (r : Resolved) (hwf : IncludedWF r.included) :
    Diff.between r r = some { added := [], changed := [], removed := [],
                              filtered_added := [], filtered_removed := [] } := by
  obtain ⟨hchain, hinner⟩ := hwf
  have hAdd : r.included.filter (fun p => (r.included.lookup p.1).isNone) = [] := by
    rw [List.filter_eq_nil_iff]
    intro p hp
    have hs := lookup_isSome_of_mem r.included p.1 p.2 (by simpa using hp)
    cases h : r.included.lookup p.1 with
    | none => rw [h] at hs; cases hs
    | some vm => simp [h]
  have hChanged : ∃ LL, (r.included.filterMap (fun p =>
      (r.included.lookup p.1).map (fun old_versions => (p.1, old_versions, p.2)))).mapM
      (fun t => t.2.2.mapM (fun vp => Diff.compare t.1 t.2.1 vp.1 vp.2)) = some LL ∧
      ∀ lc ∈ LL, ∀ c ∈ lc, c.requires_review = false := by
    refine mapM_of_forall_some
      (fun t : String × VersionMap × VersionMap =>
        t.2.2.mapM (fun vp => Diff.compare t.1 t.2.1 vp.1 vp.2))
      (fun lc => ∀ c ∈ lc, c.requires_review = false) _ ?_
    intro t ht
    obtain ⟨p, hp, hmap⟩ := List.mem_filterMap.mp ht
    have hlk : r.included.lookup p.1 = some p.2 :=
      lookup_eq_of_mem_nodup r.included p.1 p.2 (nodup_fst_of_chain' hchain)
        (by simpa using hp)
    rw [hlk] at hmap
    obtain rfl : (p.1, p.2, p.2) = t := Option.some.inj hmap
    obtain ⟨bs, hbs, hbsp⟩ := mapM_of_forall_some
      (fun vp : Version × IncludedDependencyVersion => Diff.compare p.1 p.2 vp.1 vp.2)
      (fun c => c.requires_review = false) p.2
      (fun vp hvp => compare_self p.1 p.2 vp.1 vp.2 (hinner p hp).2 (by simpa using hvp))
    exact ⟨bs, hbs, fun c hc => hbsp c hc⟩
  obtain ⟨LL, hLL, hLLp⟩ := hChanged
  have hFlat : LL.flatten.filter (fun c => Comparison.requires_review c) = [] := by
    rw [List.filter_eq_nil_iff]
    intro c hc
    obtain ⟨lc, hlc, hcin⟩ := List.mem_flatten.mp hc
    simp [hLLp lc hlc c hcin]
  have hRem : ∀ t ∈ r.included.filterMap (fun p =>
      let new_versions := r.included.lookup p.1
      let has_change := new_versions.elim false
        (fun nv => nv.any (fun kv => !(p.2.lookup kv.1).isSome))
      if has_change then none else some (p.1, p.2, new_versions)),
      ((t.2.1.map Prod.fst).filter (fun version =>
        !(t.2.2.elim false (fun nv => (nv.lookup version).isSome)))) = [] := by
    intro t ht
    obtain ⟨p, hp, hmap⟩ := List.mem_filterMap.mp ht
    have hlk : r.included.lookup p.1 = some p.2 :=
      lookup_eq_of_mem_nodup r.included p.1 p.2 (nodup_fst_of_chain' hchain)
        (by simpa using hp)
    simp only [hlk] at hmap
    have hnc : (p.2.any (fun kv => !(p.2.lookup kv.1).isSome)) = false := by
      rw [List.any_eq_false]
      intro kv hkv
      simp [lookup_isSome_of_mem p.2 kv.1 kv.2 (by simpa using hkv)]
    rw [Option.elim, hnc, if_neg (by simp)] at hmap
    cases hmap
    rw [List.filter_eq_nil_iff]
    intro ver hver
    obtain ⟨kv, hkv, hkv2⟩ := List.mem_map.mp hver
    subst hkv2
    simp [Option.elim, lookup_isSome_of_mem p.2 kv.1 kv.2 (by simpa using hkv)]
  rw [Diff.between, hLL]
  show some _ = some _
  rw [hAdd, hFlat]
  simp only [List.flatMap_nil, Option.some_inj]
  congr 1
  · exact List.flatMap_eq_nil_iff.mpr (fun t ht => by rw [hRem t ht]; rfl)
  · exact filter_not_contains_self r.filtered
  · exact filter_not_contains_self r.filtered

/-- Witness for C6 at a one-entry resolution with a nonempty filtered set. -/
theorem c6_witness :
    IncludedWF exResolvedSelf.included ∧
    Diff.between exResolvedSelf exResolvedSelf =
      some { added := [], changed := [], removed := [],
             filtered_added := [], filtered_removed := [] } := by
  have hwf : IncludedWF exResolvedSelf.included := by
    constructor
    · exact List.chain'_singleton _
    · intro p hp
      rcases List.mem_singleton.mp hp with rfl
      exact ⟨by simp, List.chain'_singleton _⟩
  exact ⟨hwf, c6_diff_between_self exResolvedSelf hwf⟩

/-! ## Claim C7 — termination of the work-queue walk -/

theorem le_foldr_max : ∀ (l : List Nat) (x : Nat), x ∈ l → x ≤ l.foldr max 0 := by
  intro l
  induction l with
  | nil =>
    intro x h
    cases h
  | cons a rest ih =>
    intro x h
    rcases List.mem_cons.mp h with rfl | h'
    · exact le_max_left _ _
    · exact le_trans (ih x h') (le_max_right _ _)

theorem deps_length_le_maxDeps (m : IndexedMetadata) (p : PackageId) (node : Node)
    (h : m.resolve.lookup p = some node) : node.deps.length ≤ maxDeps m :=
  le_foldr_max _ _ (List.mem_map.mpr ⟨(p, node), lookup_mem h, rfl⟩)

theorem childTodoFor_pkg (pk : DependencyKind) (dp : SpecificAnyCrateIdent)
    (ie : TodoFrom) (dep : NodeDep) (t : Todo)
    (h : childTodoFor pk dp ie dep = some t) : t.pkg = dep.pkg := by
  rw [childTodoFor.eq_def] at h
  split at h
  · cases h
  · cases h
    rfl

theorem processTodo_children (m : IndexedMetadata) (included : Included) (t : Todo)
    (included' : Included) (children : List Todo)
    (h : processTodo m included t = some (included', children)) :
    children = [] ∨ ∃ node, m.resolve.lookup t.pkg = some node ∧
      ∃ pk dp, children = childTodos node pk dp t.incoming_edge := by
  rw [processTodo] at h
  cases hp : m.packages.lookup t.pkg with
  | none =>
    rw [hp] at h
    cases h
  | some package =>
    rw [hp] at h
    cases hn : m.resolve.lookup t.pkg with
    | none =>
      rw [hn] at h
      cases h
    | some node =>
      rw [hn] at h
      simp only [Option.bind_eq_bind, Option.some_bind] at h
      split at h
      · rcases ite_eq_iff.mp h with ⟨_, h'⟩ | ⟨_, h'⟩
        · cases h'
          exact Or.inl rfl
        · cases h'
          exact Or.inr ⟨node, rfl, _, _, rfl⟩
      · cases h
        exact Or.inr ⟨node, rfl, _, _, rfl⟩

theorem todoMeasure_append (m : IndexedMetadata) (rank : PackageId → Nat)
    (a b : List Todo) :
    todoMeasure m rank (a ++ b) = todoMeasure m rank a + todoMeasure m rank b := by
  rw [todoMeasure, todoMeasure, todoMeasure, List.map_append, List.sum_append]

theorem todoMeasure_reverse (m : IndexedMetadata) (rank : PackageId → Nat)
    (a : List Todo) : todoMeasure m rank a.reverse = todoMeasure m rank a := by
  rw [todoMeasure, todoMeasure, List.map_reverse, List.sum_reverse]

theorem todoMeasure_children_lt (m : IndexedMetadata) (rank : PackageId → Nat)
    (hacyc : RankedAcyclic m rank) (t : Todo) (node : Node)
    (hnode : m.resolve.lookup t.pkg = some node) (pk : DependencyKind)
    (dp : SpecificAnyCrateIdent) :
    todoMeasure m rank (childTodos node pk dp t.incoming_edge) <
      (maxDeps m + 1) ^ rank t.pkg := by
  have hrank : ∀ c ∈ childTodos node pk dp t.incoming_edge, rank c.pkg < rank t.pkg := by
    intro c hc
    obtain ⟨dep, hdep, hcf⟩ := List.mem_filterMap.mp hc
    rw [childTodoFor_pkg pk dp t.incoming_edge dep c hcf]
    exact hacyc (t.pkg, node) (lookup_mem hnode) dep hdep
  have hlen : (childTodos node pk dp t.incoming_edge).length ≤ maxDeps m :=
    le_trans (List.length_filterMap_le _ _) (deps_length_le_maxDeps m t.pkg node hnode)
  cases hr : rank t.pkg with
  | zero =>
    cases hcc : childTodos node pk dp t.incoming_edge with
    | nil =>
      simp only [todoMeasure, List.map_nil, List.sum_nil]
      exact Nat.pow_pos (Nat.succ_pos _)
    | cons c cs =>
      have hcmem := hrank c (by rw [hcc]; exact List.mem_cons_self _ _)
      rw [hr] at hcmem
      cases hcmem
  | succ r =>
    have hbound : ∀ x ∈ (childTodos node pk dp t.incoming_edge).map
        (fun u => (maxDeps m + 1) ^ rank u.pkg), x ≤ (maxDeps m + 1) ^ r := by
      intro x hx
      obtain ⟨c, hc, rfl⟩ := List.mem_map.mp hx
      have hlt := hrank c hc
      rw [hr] at hlt
      exact Nat.pow_le_pow_right (Nat.succ_le_succ (Nat.zero_le _))
        (Nat.lt_succ_iff.mp hlt)
    rw [todoMeasure]
    calc ((childTodos node pk dp t.incoming_edge).map
          (fun u => (maxDeps m + 1) ^ rank u.pkg)).sum
        ≤ ((childTodos node pk dp t.incoming_edge).map
            (fun u => (maxDeps m + 1) ^ rank u.pkg)).length * ((maxDeps m + 1) ^ r) := by
          have hle := List.sum_le_card_nsmul
            ((childTodos node pk dp t.incoming_edge).map
              (fun u => (maxDeps m + 1) ^ rank u.pkg))
            ((maxDeps m + 1) ^ r) hbound
          simpa [smul_eq_mul] using hle
      _ ≤ maxDeps m * ((maxDeps m + 1) ^ r) := by
          rw [List.length_map]
          exact Nat.mul_le_mul_right _ hlen
      _ < (maxDeps m + 1) * ((maxDeps m + 1) ^ r) :=
          mul_lt_mul_of_pos_right (Nat.lt_succ_self _) (Nat.pow_pos (Nat.succ_pos _))
      _ = (maxDeps m + 1) ^ (r + 1) := by
          rw [pow_succ, Nat.mul_comm]

theorem walk_not_outOfFuel_of_measure (m : IndexedMetadata) (rank : PackageId → Nat)
    (hacyc : RankedAcyclic m rank) :
    ∀ (n : Nat) (todos : List Todo) (included : Included),
    todoMeasure m rank todos ≤ n →
    walk m n todos included ≠ WalkRes.outOfFuel := by
  intro n
  induction n using Nat.strong_induction_on with
  | _ n ih =>
    intro todos included hmeas
    cases todos with
    | nil =>
      cases n <;> simp [walk]
    | cons t rest =>
      have hpos : 1 ≤ todoMeasure m rank (t :: rest) := by
        rw [todoMeasure, List.map_cons, List.sum_cons]
        have : 0 < (maxDeps m + 1) ^ rank t.pkg := Nat.pow_pos (Nat.succ_pos _)
        omega
      cases n with
      | zero => omega
      | succ n' =>
        rw [walk]
        cases hproc : processTodo m included t with
        | none => simp
        | some pr =>
          obtain ⟨included', children⟩ := pr
          have hdec : todoMeasure m rank (children.reverse ++ rest) <
              todoMeasure m rank (t :: rest) := by
            have hsplit : todoMeasure m rank (t :: rest) =
                (maxDeps m + 1) ^ rank t.pkg + todoMeasure m rank rest := by
              rw [todoMeasure, todoMeasure, List.map_cons, List.sum_cons]
            have hctl : todoMeasure m rank children < (maxDeps m + 1) ^ rank t.pkg := by
              rcases processTodo_children m included t included' children hproc with
                hnil | ⟨node, hnode, pk, dp, hch⟩
              · rw [hnil]
                simp only [todoMeasure, List.map_nil, List.sum_nil]
                exact Nat.pow_pos (Nat.succ_pos _)
              · rw [hch]
                exact todoMeasure_children_lt m rank hacyc t node hnode pk dp
            rw [todoMeasure_append, todoMeasure_reverse, hsplit]
            omega
          exact ih n' (Nat.lt_succ_self _) _ included' (by omega)

/-- Claim C7 (amended): on any metadata whose resolve graph is acyclic — a
rank function strictly decreasing along every dependency edge exists — the
work-queue walk terminates: registry visits that strengthen nothing schedule
no further work, and every scheduled child sits strictly lower in the rank,
so the weighted work measure strictly decreases. The acyclicity restriction
is forced: local packages are re-scheduled unconditionally, and on a local
dependency cycle the walk diverges (see the counterexample). -/
theorem c7_walk_terminates (m : IndexedMetadata) (rank : PackageId → Nat)
    (hacyc : RankedAcyclic m rank) (included : Included) :
    WalkTerminates m included := by
  cases hinit : initTodos m with
  | none =>
    refine ⟨0, ?_⟩
    rw [resolve_platform, hinit]
    simp
  | some todos =>
    refine ⟨todoMeasure m rank todos.reverse, ?_⟩
    rw [resolve_platform, hinit]
    exact walk_not_outOfFuel_of_measure m rank hacyc _ todos.reverse included (le_refl _)

/-- Witness for the amended C7 on the small healthy workspace. -/
theorem c7_witness :
    RankedAcyclic exMetaW exRankW ∧ WalkTerminates exMetaW [] :=
  ⟨by decide, c7_walk_terminates exMetaW exRankW (by decide) []⟩

/-- C7 counterexample: on the metadata whose single local default member
depends on itself with a normal edge, the walk reproduces the same work item
forever — with any amount of fuel it runs out, refuting termination for
every input. -/
theorem c7_counterexample : ¬ WalkTerminates exMetaLoop [] := by
  have haux : ∀ fuel, walk exMetaLoop fuel [exTodoLoop] [] = WalkRes.outOfFuel := by
    intro fuel
    induction fuel with
    | zero => rfl
    | succ n ih =>
      rw [walk]
      rw [show processTodo exMetaLoop [] exTodoLoop = some ([], [exTodoLoop]) from rfl]
      exact ih
  have haux1 : ∀ fuel, walk exMetaLoop fuel [exTodoLoop1] [] = WalkRes.outOfFuel := by
    intro fuel
    cases fuel with
    | zero => rfl
    | succ n =>
      rw [walk]
      rw [show processTodo exMetaLoop [] exTodoLoop1 = some ([], [exTodoLoop]) from rfl]
      exact haux n
  rintro ⟨fuel, hf⟩
  apply hf
  show resolve_platform fuel exMetaLoop [] = WalkRes.outOfFuel
  cases fuel with
  | zero => rfl
  | succ n =>
    rw [show resolve_platform (n + 1) exMetaLoop [] =
        walk exMetaLoop (n + 1) [⟨DependencyKind.NORMAL,
          .workspace ["l", "Cargo.toml"], 0⟩] [] from rfl]
    rw [walk]
    rw [show processTodo exMetaLoop []
        (⟨DependencyKind.NORMAL, .workspace ["l", "Cargo.toml"], 0⟩ : Todo) =
        some ([], [exTodoLoop1]) from rfl]
    exact haux1 n

/-! ## Claim C5: soundness and completeness of the accumulated run-at-build flag -/

theorem lookup_mapInsert_self {κ ν : Type} [LinearOrder κ] [BEq κ] [LawfulBEq κ]
    (k : κ) (v : ν) : ∀ (l : List (κ × ν)), (mapInsert k v l).lookup k = some v := by
  intro l
  induction l with
  | nil => simp [mapInsert, List.lookup]
  | cons p rest ih =>
    rw [mapInsert]
    split
    · simp [List.lookup]
    · split
      · simp [List.lookup]
      · have hne : (k == p.1) = false := by
          rename_i h1 h2
          exact beq_false_of_ne (fun h => h2 h)
        simp [List.lookup, hne, ih]

theorem lookup_mapInsert_ne {κ ν : Type} [LinearOrder κ] [BEq κ] [LawfulBEq κ]
    (k k' : κ) (v : ν) (hne : k' ≠ k) :
    ∀ (l : List (κ × ν)), (mapInsert k v l).lookup k' = l.lookup k' := by
  have hbne : (k' == k) = false := beq_false_of_ne hne
  intro l
  induction l with
  | nil => simp [mapInsert, List.lookup, hbne]
  | cons p rest ih =>
    rw [mapInsert]
    split
    · simp [List.lookup, hbne]
    · split
      · rename_i heq
        subst heq
        simp [List.lookup, hbne]
      · simp [List.lookup, ih]

theorem includedLookup_insert (inc : Included) (n : String) (v : Version)
    (e : IncludedDependencyVersion) (n' : String) (v' : Version) :
    includedLookup (includedInsert inc n v e) n' v' =
      if n' = n ∧ v' = v then some e else includedLookup inc n' v' := by
  rw [includedInsert, includedLookup, includedLookup]
  by_cases hn : n' = n
  · subst hn
    rw [lookup_mapInsert_self, Option.some_bind]
    by_cases hv : v' = v
    · subst hv
      rw [lookup_mapInsert_self]
      simp
    · rw [lookup_mapInsert_ne _ _ _ hv]
      simp only [hv, and_false, if_false]
      cases hl : inc.lookup n' <;> simp [hl]
  · rw [lookup_mapInsert_ne _ _ _ hn]
    simp [hn]

theorem mapM_mem_forward {α β : Type} (f : α → Option β) :
    ∀ (l : List α) (l' : List β), l.mapM f = some l' →
      ∀ a ∈ l, ∃ b ∈ l', f a = some b := by
  intro l
  induction l with
  | nil => simp
  | cons x xs ih =>
    intro l' hmap a ha
    rw [List.mapM_cons] at hmap
    cases hx : f x with
    | none => rw [hx] at hmap; cases hmap
    | some b =>
      rw [hx] at hmap
      cases hxs : xs.mapM f with
      | none => rw [hxs] at hmap; cases hmap
      | some bs =>
        rw [hxs] at hmap
        obtain rfl : b :: bs = l' := Option.some.inj hmap
        rcases List.mem_cons.mp ha with rfl | ha'
        · exact ⟨b, List.mem_cons_self _ _, hx⟩
        · obtain ⟨b', hb', hfb'⟩ := ih bs hxs a ha'
          exact ⟨b', List.mem_cons_of_mem _ hb', hfb'⟩

theorem mapM_mem_backward {α β : Type} (f : α → Option β) :
    ∀ (l : List α) (l' : List β), l.mapM f = some l' →
      ∀ b ∈ l', ∃ a ∈ l, f a = some b := by
  intro l
  induction l with
  | nil =>
    intro l' hmap b hb
    rw [List.mapM_nil] at hmap
    obtain rfl : ([] : List β) = l' := Option.some.inj hmap
    cases hb
  | cons x xs ih =>
    intro l' hmap b hb
    rw [List.mapM_cons] at hmap
    cases hx : f x with
    | none => rw [hx] at hmap; cases hmap
    | some b0 =>
      rw [hx] at hmap
      cases hxs : xs.mapM f with
      | none => rw [hxs] at hmap; cases hmap
      | some bs =>
        rw [hxs] at hmap
        obtain rfl : b0 :: bs = l' := Option.some.inj hmap
        rcases List.mem_cons.mp hb with rfl | hb'
        · exact ⟨x, List.mem_cons_self _ _, hx⟩
        · obtain ⟨a, ha, hfa⟩ := ih bs hxs b hb'
          exact ⟨a, List.mem_cons_of_mem _ ha, hfa⟩

theorem admissible_iff (ie : TodoFrom) (k : EdgeKind) :
    admissibleKind ie k = true ↔ (ie.isWorkspace = true ∨ k ≠ EdgeKind.development) := by
  rw [admissibleKind, Bool.or_eq_true, bne_iff_ne]

theorem foldl_merged_rab :
    ∀ (xs : List DependencyKind) (a : DependencyKind),
      (xs.foldl DependencyKind.merged_with a).run_at_build =
        (a.run_at_build || xs.any (fun x => x.run_at_build)) := by
  intro xs
  induction xs with
  | nil => simp
  | cons x xs ih =>
    intro a
    rw [List.foldl_cons, ih, List.any_cons]
    cases ha : a.run_at_build <;> cases hx : x.run_at_build <;>
      simp [DependencyKind.merged_with, ha, hx]

theorem kinds_any_build (ie : TodoFrom) :
    ∀ (l : List EdgeKind),
      ((l.filter (fun k => admissibleKind ie k)).map
        (fun k => (EdgeKind.toDependencyKind k).run_at_build)).any id =
        l.contains EdgeKind.build := by
  intro l
  induction l with
  | nil => rfl
  | cons k ks ih =>
    rw [List.filter_cons, List.contains_cons]
    cases k with
    | normal =>
      rw [if_pos (by cases ie <;> simp [admissibleKind, TodoFrom.isWorkspace])]
      rw [List.map_cons, List.any_cons, ih]
      rfl
    | development =>
      cases ie with
      | workspace path =>
        rw [if_pos (by simp [admissibleKind, TodoFrom.isWorkspace])]
        rw [List.map_cons, List.any_cons, ih]
        rfl
      | dependency reason =>
        rw [if_neg (by simp [admissibleKind, TodoFrom.isWorkspace])]
        rw [ih]
        rfl
    | build =>
      rw [if_pos (by cases ie <;> simp [admissibleKind, TodoFrom.isWorkspace])]
      rw [List.map_cons, List.any_cons]
      rfl

theorem packageKindOf_rab (t : Todo) (package : Package) :
    (packageKindOf t package).run_at_build =
      (t.kind.run_at_build || packageIsProcMacro package) := by
  rw [packageKindOf]
  cases hpm : packageIsProcMacro package <;> simp [hpm]

theorem any_map_eq {α β γ : Type} (f : α → β) (g : α → γ) (p : β → Bool) (q : γ → Bool)
    (hpt : ∀ a, p (f a) = q (g a)) : ∀ l : List α, (l.map f).any p = (l.map g).any q := by
  intro l
  induction l with
  | nil => rfl
  | cons x xs ih =>
    rw [List.map_cons, List.map_cons, List.any_cons, List.any_cons, hpt, ih]

theorem childTodoFor_spec (pk : DependencyKind) (dp : SpecificAnyCrateIdent)
    (ie : TodoFrom) (dep : NodeDep) (t : Todo)
    (h : childTodoFor pk dp ie dep = some t) :
    t.pkg = dep.pkg ∧ todoWs t = false ∧
    t.kind.run_at_build = (pk.run_at_build || dep.dep_kinds.contains EdgeKind.build) := by
  rw [childTodoFor.eq_def] at h
  cases hf : dep.dep_kinds.filter (fun kind => admissibleKind ie kind) with
  | nil =>
    rw [hf] at h
    simp [listReduce] at h
  | cons k ks =>
    rw [hf, List.map_cons] at h
    simp only [listReduce] at h
    cases h
    refine ⟨rfl, rfl, ?_⟩
    show ((ks.map (fun kind => pk.then' kind.toDependencyKind)).foldl
        DependencyKind.merged_with (pk.then' k.toDependencyKind)).run_at_build = _
    rw [foldl_merged_rab]
    have hkb := kinds_any_build ie dep.dep_kinds
    rw [hf, List.map_cons, List.any_cons] at hkb
    rw [← hkb]
    cases hpk : pk.run_at_build
    · rw [any_map_eq (fun kind => pk.then' kind.toDependencyKind)
        (fun k => k.toDependencyKind.run_at_build)
        (fun x => x.run_at_build) id
        (fun a => by simp [DependencyKind.then', hpk]) ks]
      simp [DependencyKind.then', hpk]
    · simp [DependencyKind.then', hpk]

theorem childTodoFor_exists (pk : DependencyKind) (dp : SpecificAnyCrateIdent)
    (ie : TodoFrom) (dep : NodeDep) (k : EdgeKind) (hk : k ∈ dep.dep_kinds)
    (hadm : admissibleKind ie k = true) :
    ∃ t, childTodoFor pk dp ie dep = some t := by
  rw [childTodoFor.eq_def]
  cases hf : dep.dep_kinds.filter (fun kind => admissibleKind ie kind) with
  | nil =>
    exfalso
    have hmem : k ∈ dep.dep_kinds.filter (fun kind => admissibleKind ie kind) :=
      List.mem_filter.mpr ⟨hk, hadm⟩
    rw [hf] at hmem
    cases hmem
  | cons k0 ks =>
    exact ⟨_, rfl⟩

theorem childTodoFor_adm (pk : DependencyKind) (dp : SpecificAnyCrateIdent)
    (ie : TodoFrom) (dep : NodeDep) (t : Todo)
    (h : childTodoFor pk dp ie dep = some t) :
    ∃ k ∈ dep.dep_kinds, admissibleKind ie k = true := by
  rw [childTodoFor.eq_def] at h
  cases hf : dep.dep_kinds.filter (fun kind => admissibleKind ie kind) with
  | nil =>
    rw [hf] at h
    simp [listReduce] at h
  | cons k0 ks =>
    have hmem : k0 ∈ dep.dep_kinds.filter (fun kind => admissibleKind ie kind) := by
      rw [hf]
      exact List.mem_cons_self _ _
    obtain ⟨hmem', hadm⟩ := List.mem_filter.mp hmem
    exact ⟨k0, hmem', hadm⟩

theorem from_package_registry (root : Utf8Path) (package : Package)
    (h : package.source.isSome = true) :
    AnyCrateIdent.from_package root package = .cratesIo package.name := by
  rw [AnyCrateIdent.from_package, if_pos h]

theorem from_package_local (root : Utf8Path) (package : Package)
    (h : package.source.isSome = false) :
    AnyCrateIdent.from_package root package =
      .local' (shorten_path_relative_to root package.manifest_path.dropLast) := by
  rw [AnyCrateIdent.from_package, if_neg (by rw [h]; exact Bool.false_ne_true)]

theorem registryStep_merged (m : IndexedMetadata) (inc : Included) (t : Todo)
    (pk : DependencyKind) (hb pm : Bool) (n : String) (v : Version) :
    (registryStep m inc t pk hb pm n v).merged =
      ((includedLookup inc n v).getD ⟨pk, hb, pm, [], []⟩).kind.merged_with pk := rfl

theorem registryStep_entry_kind (m : IndexedMetadata) (inc : Included) (t : Todo)
    (pk : DependencyKind) (hb pm : Bool) (n : String) (v : Version) :
    (registryStep m inc t pk hb pm n v).entry.kind =
      ((includedLookup inc n v).getD ⟨pk, hb, pm, [], []⟩).kind.merged_with pk := by
  rcases t with ⟨tk, tie, tp⟩
  rw [registryStep]
  cases tie <;> cases hpl : m.platform <;> simp only [hpl]
  all_goals first
    | rfl
    | (split <;> rfl)

theorem registryStep_novelty_false (m : IndexedMetadata) (inc : Included) (t : Todo)
    (pk : DependencyKind) (hb pm : Bool) (n : String) (v : Version)
    (h : (registryStep m inc t pk hb pm n v).novelty = false) :
    ∃ e0, includedLookup inc n v = some e0 ∧ e0.kind.merged_with pk = e0.kind := by
  rw [registryStep] at h
  cases hprev : includedLookup inc n v with
  | none =>
    rw [hprev] at h
    simp at h
  | some e0 =>
    rw [hprev] at h
    simp only [Option.isNone_some, Option.getD_some, Bool.false_or] at h
    refine ⟨e0, rfl, ?_⟩
    rcases Bool.or_eq_false_iff.mp h with ⟨h1, _⟩
    exact bne_eq_false_iff_eq.mp h1

theorem processTodo_cases (m : IndexedMetadata) (inc : Included) (t : Todo)
    (inc' : Included) (ch : List Todo)
    (h : processTodo m inc t = some (inc', ch)) :
    ∃ package node, m.packages.lookup t.pkg = some package ∧
      m.resolve.lookup t.pkg = some node ∧
      ((package.source.isSome = false ∧ inc' = inc ∧
        ch = childTodos node (packageKindOf t package) (depParentOf m package)
          t.incoming_edge) ∨
       (package.source.isSome = true ∧
        inc' = includedInsert inc package.name package.version
          (registryStep m inc t (packageKindOf t package) (packageHasBuildRs package)
            (packageIsProcMacro package) package.name package.version).entry ∧
        (((registryStep m inc t (packageKindOf t package) (packageHasBuildRs package)
            (packageIsProcMacro package) package.name package.version).novelty = false ∧
          ch = []) ∨
         ((registryStep m inc t (packageKindOf t package) (packageHasBuildRs package)
            (packageIsProcMacro package) package.name package.version).novelty = true ∧
          ch = childTodos node
            (registryStep m inc t (packageKindOf t package) (packageHasBuildRs package)
              (packageIsProcMacro package) package.name package.version).merged
            (depParentOf m package) t.incoming_edge)))) := by
  rw [processTodo] at h
  cases hp : m.packages.lookup t.pkg with
  | none =>
    rw [hp] at h
    cases h
  | some package =>
    rw [hp] at h
    cases hn : m.resolve.lookup t.pkg with
    | none =>
      rw [hn] at h
      cases h
    | some node =>
      rw [hn] at h
      simp only [Option.bind_eq_bind, Option.some_bind] at h
      refine ⟨package, node, rfl, rfl, ?_⟩
      cases hsrc : package.source.isSome
      case false =>
        rw [from_package_local _ _ hsrc] at h
        cases h
        refine Or.inl ⟨rfl, rfl, ?_⟩
        rw [packageKindOf, depParentOf, from_package_local _ _ hsrc]
      case true =>
        rw [from_package_registry _ _ hsrc] at h
        rcases ite_eq_iff.mp h with ⟨hc, h'⟩ | ⟨hc, h'⟩
        · cases h'
          refine Or.inr ⟨rfl, ?_, Or.inl ⟨?_, rfl⟩⟩
          · rw [packageKindOf]
          · rw [packageKindOf]
            exact Bool.not_eq_true' .. |>.mp hc
        · cases h'
          refine Or.inr ⟨rfl, ?_, Or.inr ⟨?_, ?_⟩⟩
          · rw [packageKindOf]
          · rw [packageKindOf]
            rcases Bool.eq_false_or_eq_true ((registryStep m inc t
                (if packageIsProcMacro package then { t.kind with run_at_build := true }
                  else t.kind) (packageHasBuildRs package) (packageIsProcMacro package)
                package.name package.version).novelty) with ht | hf
            · exact ht
            · exact absurd (by rw [hf]; rfl) hc
          · rw [packageKindOf, depParentOf, from_package_registry _ _ hsrc]

theorem StepRel_mono (m : IndexedMetadata) (p : PackageId) (ws r : Bool)
    (c : PackageId) (rc : Bool) (ws' r' : Bool)
    (h : StepRel m p ws r c rc) (hws : ws = true → ws' = true)
    (hr : r = true → r' = true) :
    ∃ rc', StepRel m p ws' r' c rc' ∧ (rc = true → rc' = true) := by
  obtain ⟨package, node, dep, hp, hn, hdep, hc, ⟨k, hk, hkadm⟩, hrc⟩ := h
  refine ⟨(r' || packageIsProcMacro package) || dep.dep_kinds.contains EdgeKind.build,
    ⟨package, node, dep, hp, hn, hdep, hc, ⟨k, hk, ?_⟩, rfl⟩, ?_⟩
  · rcases hkadm with hkws | hkd
    · exact Or.inl (hws hkws)
    · exact Or.inr hkd
  · intro hrct
    rw [hrc, Bool.or_eq_true, Bool.or_eq_true] at hrct
    rw [Bool.or_eq_true, Bool.or_eq_true]
    rcases hrct with (hr1 | hpm) | hcb
    · exact Or.inl (Or.inl (hr hr1))
    · exact Or.inl (Or.inr hpm)
    · exact Or.inr hcb

theorem LeadsC_mono (m : IndexedMetadata) :
    ∀ (p : PackageId) (ws r : Bool) (q : PackageId) (wsq rq : Bool),
    LeadsC m p ws r q wsq rq →
    ∀ ws' r', (ws = true → ws' = true) → (r = true → r' = true) →
    ∃ wsq' rq', LeadsC m p ws' r' q wsq' rq' ∧ (wsq = true → wsq' = true) ∧
      (rq = true → rq' = true) := by
  intro p ws r q wsq rq h
  induction h with
  | refl p ws r =>
    intro ws' r' hws hr
    exact ⟨ws', r', LeadsC.refl _ _ _, hws, hr⟩
  | step p ws r c rc q wsq rq hlocal hstep hrest ih =>
    intro ws' r' hws hr
    obtain ⟨rc', hstep', hrc⟩ := StepRel_mono m p ws r c rc ws' r' hstep hws hr
    obtain ⟨wsq', rq', hchain', hd1, hd2⟩ := ih false rc' (fun h => h) hrc
    exact ⟨wsq', rq', LeadsC.step _ _ _ _ _ _ _ _ hlocal hstep' hchain', hd1, hd2⟩

theorem EntCov_mono_r (m : IndexedMetadata) (I : Included) (q : PackageId)
    (rq rq' : Bool) (h : EntCov m I q rq') (hd : rq = true → rq' = true) :
    EntCov m I q rq := by
  intro package hp hs
  obtain ⟨e, he, hdom⟩ := h package hp hs
  refine ⟨e, he, fun hh => hdom ?_⟩
  rw [Bool.or_eq_true] at hh ⊢
  rcases hh with h1 | h2
  · exact Or.inl (hd h1)
  · exact Or.inr h2

theorem EntCov_insert (m : IndexedMetadata) (inc : Included) (p : PackageId) (r : Bool)
    (n : String) (v : Version) (enew : IncludedDependencyVersion)
    (hmono : ∀ eold, includedLookup inc n v = some eold →
      eold.kind.run_at_build = true → enew.kind.run_at_build = true)
    (h : EntCov m inc p r) : EntCov m (includedInsert inc n v enew) p r := by
  intro package hp hs
  obtain ⟨e, he, hdom⟩ := h package hp hs
  by_cases hk : package.name = n ∧ package.version = v
  · refine ⟨enew, by rw [includedLookup_insert, if_pos hk], fun hh => ?_⟩
    obtain ⟨hk1, hk2⟩ := hk
    rw [hk1, hk2] at he
    exact hmono e he (hdom hh)
  · exact ⟨e, by rw [includedLookup_insert, if_neg hk]; exact he, hdom⟩

theorem Reach_true_seed (m : IndexedMetadata) (p : PackageId) (r : Bool)
    (h : Reach m p true r) : p ∈ m.get_workspace_default_members ∧ r = false := by
  cases h with
  | seed pid hmem => exact ⟨hmem, rfl⟩

theorem isLocal_iff (m : IndexedMetadata) (pid : PackageId) (package : Package)
    (hp : m.packages.lookup pid = some package) :
    IsLocalPackage m pid ↔ package.source.isSome = false := by
  constructor
  · rintro ⟨q, hq, hqs⟩
    rw [hp] at hq
    obtain rfl : package = q := Option.some.inj hq
    rw [hqs]
    rfl
  · intro hs
    refine ⟨package, hp, ?_⟩
    cases hsrc : package.source with
    | none => rfl
    | some s =>
      rw [hsrc] at hs
      cases hs

theorem IncSound_nil (m : IndexedMetadata) : IncSound m [] := by
  intro n v e hlook
  simp [includedLookup] at hlook

theorem processTodo_sound (m : IndexedMetadata) (hu : UniqueRegistryNV m)
    (inc : Included) (t : Todo) (inc' : Included) (ch : List Todo)
    (hproc : processTodo m inc t = some (inc', ch))
    (hts : TodoSound m t) (hwsl : todoWs t = true → IsLocalPackage m t.pkg)
    (hinc : IncSound m inc) :
    IncSound m inc' ∧ ∀ u ∈ ch, TodoSound m u ∧ todoWs u = false := by
  obtain ⟨package, node, hp, hn, hcase⟩ := processTodo_cases m inc t inc' ch hproc
  rcases hcase with ⟨hsrc, rfl, rfl⟩ | ⟨hsrc, hi, hch⟩
  · refine ⟨hinc, ?_⟩
    intro u hu'
    obtain ⟨dep, hdep, hcf⟩ := List.mem_filterMap.mp hu'
    obtain ⟨hupkg, huws, hurab⟩ := childTodoFor_spec _ _ _ _ _ hcf
    obtain ⟨k, hk, hkadm⟩ := childTodoFor_adm _ _ _ _ _ hcf
    refine ⟨?_, huws⟩
    show Reach m u.pkg (todoWs u) u.kind.run_at_build
    rw [huws, hurab, packageKindOf_rab]
    exact Reach.step t.pkg (todoWs t) t.kind.run_at_build u.pkg _ hts
      ⟨package, node, dep, hp, hn, hdep, hupkg,
       ⟨k, hk, (admissible_iff _ _).mp hkadm⟩, rfl⟩
  · have hreg : todoWs t = false := by
      cases hws : todoWs t
      · rfl
      · exfalso
        obtain ⟨q, hq, hqs⟩ := hwsl hws
        rw [hp] at hq
        obtain rfl : package = q := Option.some.inj hq
        rw [hqs] at hsrc
        cases hsrc
    have hpkcase : (packageKindOf t package).run_at_build = true →
        ReachRuns m package.name package.version := by
      intro hpk
      exact ⟨t.pkg, package, todoWs t, t.kind.run_at_build, hp, hsrc, rfl, rfl, hts,
        by rw [← packageKindOf_rab]; exact hpk⟩
    have hincS : IncSound m inc' := by
      rw [hi]
      intro n' v' e' hlook hrab
      by_cases hk : n' = package.name ∧ v' = package.version
      · rw [includedLookup_insert, if_pos hk] at hlook
        obtain rfl : _ = e' := Option.some.inj hlook
        obtain ⟨hk1, hk2⟩ := hk
        subst hk1
        subst hk2
        rw [registryStep_entry_kind] at hrab
        have hor : (((includedLookup inc package.name package.version).getD
            ⟨packageKindOf t package, packageHasBuildRs package,
             packageIsProcMacro package, [], []⟩).kind.run_at_build ||
            (packageKindOf t package).run_at_build) = true := hrab
        cases hprev : includedLookup inc package.name package.version with
        | none =>
          rw [hprev, Bool.or_eq_true] at hor
          rcases hor with h1 | h2
          · exact hpkcase h1
          · exact hpkcase h2
        | some e0 =>
          rw [hprev, Bool.or_eq_true] at hor
          rcases hor with h1 | h2
          · exact hinc _ _ _ hprev h1
          · exact hpkcase h2
      · rw [includedLookup_insert, if_neg hk] at hlook
        exact hinc _ _ _ hlook hrab
    rcases hch with ⟨hnov, rfl⟩ | ⟨hnov, rfl⟩
    · refine ⟨hincS, ?_⟩
      intro u hu'
      cases hu'
    · refine ⟨hincS, ?_⟩
      intro u hu'
      obtain ⟨dep, hdep, hcf⟩ := List.mem_filterMap.mp hu'
      obtain ⟨hupkg, huws, hurab⟩ := childTodoFor_spec _ _ _ _ _ hcf
      obtain ⟨k, hk, hkadm⟩ := childTodoFor_adm _ _ _ _ _ hcf
      have hknd : k ≠ EdgeKind.development := by
        rcases (admissible_iff _ _).mp hkadm with hws | hkd
        · rw [show t.incoming_edge.isWorkspace = todoWs t from rfl, hreg] at hws
          cases hws
        · exact hkd
      refine ⟨?_, huws⟩
      show Reach m u.pkg (todoWs u) u.kind.run_at_build
      have hXeq : u.kind.run_at_build =
          ((((includedLookup inc package.name package.version).getD
            ⟨packageKindOf t package, packageHasBuildRs package,
             packageIsProcMacro package, [], []⟩).kind.run_at_build ||
            (t.kind.run_at_build || packageIsProcMacro package)) ||
            dep.dep_kinds.contains EdgeKind.build) := by
        rw [hurab, registryStep_merged, ← packageKindOf_rab]
        rfl
      rw [huws, hXeq]
      cases hprev : includedLookup inc package.name package.version with
      | none =>
        simp only [Option.getD_none]
        rw [packageKindOf_rab, Bool.or_self]
        exact Reach.step t.pkg (todoWs t) t.kind.run_at_build u.pkg _ hts
          ⟨package, node, dep, hp, hn, hdep, hupkg, ⟨k, hk, Or.inr hknd⟩, rfl⟩
      | some e0 =>
        simp only [Option.getD_some]
        cases hA : e0.kind.run_at_build
        · rw [Bool.false_or]
          exact Reach.step t.pkg (todoWs t) t.kind.run_at_build u.pkg _ hts
            ⟨package, node, dep, hp, hn, hdep, hupkg, ⟨k, hk, Or.inr hknd⟩, rfl⟩
        · obtain ⟨pid', package', ws', r', hlook', hsrc', hname', hver', hreach', hr'⟩ :=
            hinc _ _ _ hprev hA
          have hpid : pid' = t.pkg :=
            hu (pid', package') (lookup_mem hlook') (t.pkg, package) (lookup_mem hp)
              hsrc' hsrc hname' hver'
          subst hpid
          rw [hp] at hlook'
          obtain rfl : package = package' := Option.some.inj hlook'
          exact Reach.step t.pkg ws' r' u.pkg _ hreach'
            ⟨package, node, dep, hp, hn, hdep, hupkg, ⟨k, hk, Or.inr hknd⟩,
             by rw [hr']; rfl⟩

theorem walk_sound (m : IndexedMetadata) (hu : UniqueRegistryNV m) :
    ∀ (fuel : Nat) (todos : List Todo) (inc I : Included),
    walk m fuel todos inc = WalkRes.done I →
    (∀ t ∈ todos, TodoSound m t) →
    (∀ t ∈ todos, todoWs t = true → IsLocalPackage m t.pkg) →
    IncSound m inc → IncSound m I := by
  intro fuel
  induction fuel with
  | zero =>
    intro todos inc I hw hts hwsl hinc
    cases todos with
    | nil =>
      rw [walk] at hw
      cases hw
      exact hinc
    | cons t rest =>
      rw [walk] at hw
      cases hw
  | succ n ih =>
    intro todos inc I hw hts hwsl hinc
    cases todos with
    | nil =>
      rw [walk] at hw
      cases hw
      exact hinc
    | cons t rest =>
      rw [walk] at hw
      cases hproc : processTodo m inc t with
      | none =>
        rw [hproc] at hw
        cases hw
      | some pr =>
        obtain ⟨inc', ch⟩ := pr
        rw [hproc] at hw
        obtain ⟨hincS, hch⟩ := processTodo_sound m hu inc t inc' ch hproc
          (hts t (List.mem_cons_self _ _)) (hwsl t (List.mem_cons_self _ _)) hinc
        refine ih _ _ _ hw ?_ ?_ hincS
        · intro u hu'
          rcases List.mem_append.mp hu' with h1 | h2
          · exact (hch u (List.mem_reverse.mp h1)).1
          · exact hts u (List.mem_cons_of_mem _ h2)
        · intro u hu' hws
          rcases List.mem_append.mp hu' with h1 | h2
          · rw [(hch u (List.mem_reverse.mp h1)).2] at hws
            cases hws
          · exact hwsl u (List.mem_cons_of_mem _ h2) hws

theorem bool_or_absorb :
    ∀ (a tb pm cb : Bool), ((a || (tb || pm)) || cb) = (((a || (tb || pm)) || pm) || cb) := by
  decide

theorem processTodo_cov (m : IndexedMetadata) (inc : Included) (t : Todo)
    (inc' : Included) (ch : List Todo) (rest : List Todo)
    (hproc : processTodo m inc t = some (inc', ch)) :
    ∀ p ws r, (PendCov m (t :: rest) p ws r ∨ EntCov m inc p r) →
      PendCov m (ch.reverse ++ rest) p ws r ∨ EntCov m inc' p r := by
  obtain ⟨package, node, hp, hn, hcase⟩ := processTodo_cases m inc t inc' ch hproc
  intro p ws r hold
  rcases hold with ⟨u, huin, ws', r', hchain, hd1, hd2⟩ | hent
  · rcases List.mem_cons.mp huin with heq | hurest
    · rw [heq] at hchain
      cases hchain with
      | refl =>
        refine Or.inr ?_
        intro package0 hp0 hs0
        rw [hp] at hp0
        obtain rfl : package = package0 := Option.some.inj hp0
        rcases hcase with ⟨hsrcF, _, _⟩ | ⟨hsrcT, hi, _⟩
        · rw [hs0] at hsrcF
          cases hsrcF
        · rw [hi]
          refine ⟨_, by rw [includedLookup_insert, if_pos ⟨rfl, rfl⟩], ?_⟩
          intro hrp
          rw [registryStep_entry_kind]
          have hpk : (packageKindOf t package).run_at_build = true := by
            rw [packageKindOf_rab, Bool.or_eq_true]
            rw [Bool.or_eq_true] at hrp
            rcases hrp with h1 | h2
            · exact Or.inl (hd2 h1)
            · exact Or.inr h2
          show (_ || (packageKindOf t package).run_at_build) = true
          rw [hpk]
          cases ((includedLookup inc package.name package.version).getD
            ⟨packageKindOf t package, packageHasBuildRs package,
             packageIsProcMacro package, [], []⟩).kind.run_at_build <;> rfl
      | step p0 ws0 r0 c rc q0 wsq0 rq0 hlocal hstep hrest' =>
        rcases hcase with ⟨hsrcF, rfl, rfl⟩ | ⟨hsrcT, _, _⟩
        · obtain ⟨package0, node0, dep, hp0, hn0, hdep, hc, ⟨kk, hkk, hkadm⟩, hrc⟩ := hstep
          rw [hp] at hp0
          obtain rfl : package = package0 := Option.some.inj hp0
          rw [hn] at hn0
          obtain rfl : node = node0 := Option.some.inj hn0
          obtain ⟨u0, hcf⟩ := childTodoFor_exists (packageKindOf t package)
            (depParentOf m package) t.incoming_edge dep kk hkk
            ((admissible_iff _ _).mpr hkadm)
          obtain ⟨hupkg0, huws0, hurab0⟩ := childTodoFor_spec _ _ _ _ _ hcf
          have hu0rab : u0.kind.run_at_build = rc := by
            rw [hurab0, hrc, packageKindOf_rab]
          have hchain0 : LeadsC m u0.pkg (todoWs u0) u0.kind.run_at_build p ws' r' := by
            rw [hupkg0, ← hc, huws0, hu0rab]
            exact hrest'
          refine Or.inl ⟨u0, List.mem_append_left _ (List.mem_reverse.mpr ?_),
            ws', r', hchain0, hd1, hd2⟩
          exact List.mem_filterMap.mpr ⟨dep, hdep, hcf⟩
        · exfalso
          obtain ⟨q, hq, hqs⟩ := hlocal
          rw [hp] at hq
          obtain rfl : package = q := Option.some.inj hq
          rw [hqs] at hsrcT
          cases hsrcT
    · exact Or.inl ⟨u, List.mem_append_right _ hurest, ws', r', hchain, hd1, hd2⟩
  · rcases hcase with ⟨hsrcF, rfl, rfl⟩ | ⟨hsrcT, hi, _⟩
    · exact Or.inr hent
    · rw [hi]
      refine Or.inr (EntCov_insert m inc p r _ _ _ ?_ hent)
      intro eold heold hrab0
      rw [registryStep_entry_kind, heold]
      show (eold.kind.run_at_build || _) = true
      rw [hrab0]
      rfl

theorem processTodo_complete (m : IndexedMetadata) (hu : UniqueRegistryNV m)
    (inc : Included) (t : Todo) (inc' : Included) (ch : List Todo) (rest : List Todo)
    (hproc : processTodo m inc t = some (inc', ch))
    (hJ1 : J1 m (t :: rest) inc) (hJ2 : J2 m (t :: rest) inc) :
    J1 m (ch.reverse ++ rest) inc' ∧ J2 m (ch.reverse ++ rest) inc' := by
  have hcov := processTodo_cov m inc t inc' ch rest hproc
  obtain ⟨package, node, hp, hn, hcase⟩ := processTodo_cases m inc t inc' ch hproc
  constructor
  · intro s hs p ws r hchain
    exact hcov p ws r (hJ1 s hs p ws r hchain)
  · intro a package_a e haL hsrc_a hlook' c rc hstep p ws r hchain
    rcases hcase with ⟨hsrcF, rfl, rfl⟩ | ⟨hsrcT, hi, hch⟩
    · exact hcov p ws r (hJ2 a package_a e haL hsrc_a hlook' c rc hstep p ws r hchain)
    · rw [hi, includedLookup_insert] at hlook'
      by_cases hk : package_a.name = package.name ∧ package_a.version = package.version
      · rw [if_pos hk] at hlook'
        obtain rfl : _ = e := Option.some.inj hlook'
        have hpid : a = t.pkg :=
          hu (a, package_a) (lookup_mem haL) (t.pkg, package) (lookup_mem hp)
            hsrc_a hsrcT hk.1 hk.2
        subst hpid
        rw [haL] at hp
        obtain rfl : package_a = package := Option.some.inj hp
        rcases hch with ⟨hnovF, rfl⟩ | ⟨hnovT, rfl⟩
        · obtain ⟨e0, hprev, hkind⟩ := registryStep_novelty_false m inc t
            (packageKindOf t package_a) (packageHasBuildRs package_a)
            (packageIsProcMacro package_a) package_a.name package_a.version hnovF
          have hekind : (registryStep m inc t (packageKindOf t package_a)
              (packageHasBuildRs package_a) (packageIsProcMacro package_a)
              package_a.name package_a.version).entry.kind = e0.kind := by
            rw [registryStep_entry_kind, hprev]
            exact hkind
          rw [hekind] at hstep
          exact hcov p ws r (hJ2 t.pkg package_a e0 haL hsrc_a hprev c rc hstep p ws r hchain)
        · obtain ⟨package0, node0, dep, hp0, hn0, hdep, hc, ⟨kk, hkk, hkadm⟩, hrc⟩ := hstep
          rw [haL] at hp0
          obtain rfl : package_a = package0 := Option.some.inj hp0
          rw [hn] at hn0
          obtain rfl : node = node0 := Option.some.inj hn0
          have hknd : kk ≠ EdgeKind.development := by
            rcases hkadm with hf | hkd
            · cases hf
            · exact hkd
          obtain ⟨u0, hcf⟩ := childTodoFor_exists (registryStep m inc t
              (packageKindOf t package_a) (packageHasBuildRs package_a)
              (packageIsProcMacro package_a) package_a.name package_a.version).merged
            (depParentOf m package_a) t.incoming_edge dep kk hkk
            ((admissible_iff _ _).mpr (Or.inr hknd))
          obtain ⟨hupkg0, huws0, hurab0⟩ := childTodoFor_spec _ _ _ _ _ hcf
          have hmr : (registryStep m inc t (packageKindOf t package_a)
              (packageHasBuildRs package_a) (packageIsProcMacro package_a)
              package_a.name package_a.version).merged.run_at_build =
              (((includedLookup inc package_a.name package_a.version).getD
                ⟨packageKindOf t package_a, packageHasBuildRs package_a,
                 packageIsProcMacro package_a, [], []⟩).kind.run_at_build ||
               (t.kind.run_at_build || packageIsProcMacro package_a)) := by
            rw [registryStep_merged, ← packageKindOf_rab]
            rfl
          have her : (registryStep m inc t (packageKindOf t package_a)
              (packageHasBuildRs package_a) (packageIsProcMacro package_a)
              package_a.name package_a.version).entry.kind.run_at_build =
              (((includedLookup inc package_a.name package_a.version).getD
                ⟨packageKindOf t package_a, packageHasBuildRs package_a,
                 packageIsProcMacro package_a, [], []⟩).kind.run_at_build ||
               (t.kind.run_at_build || packageIsProcMacro package_a)) := by
            rw [registryStep_entry_kind, ← packageKindOf_rab]
            rfl
          have hu0rab : u0.kind.run_at_build = rc := by
            rw [hurab0, hmr, hrc, her]
            exact bool_or_absorb _ _ _ _
          have hchain0 : LeadsC m u0.pkg (todoWs u0) u0.kind.run_at_build p ws r := by
            rw [hupkg0, ← hc, huws0, hu0rab]
            exact hchain
          refine Or.inl ⟨u0, List.mem_append_left _ (List.mem_reverse.mpr ?_),
            ws, r, hchain0, fun h => h, fun h => h⟩
          exact List.mem_filterMap.mpr ⟨dep, hdep, hcf⟩
      · rw [if_neg hk] at hlook'
        exact hcov p ws r (hJ2 a package_a e haL hsrc_a hlook' c rc hstep p ws r hchain)

theorem walk_complete (m : IndexedMetadata) (hu : UniqueRegistryNV m) :
    ∀ (fuel : Nat) (todos : List Todo) (inc I : Included),
    walk m fuel todos inc = WalkRes.done I →
    J1 m todos inc → J2 m todos inc → J1 m [] I ∧ J2 m [] I := by
  intro fuel
  induction fuel with
  | zero =>
    intro todos inc I hw hJ1 hJ2
    cases todos with
    | nil =>
      rw [walk] at hw
      cases hw
      exact ⟨hJ1, hJ2⟩
    | cons t rest =>
      rw [walk] at hw
      cases hw
  | succ n ih =>
    intro todos inc I hw hJ1 hJ2
    cases todos with
    | nil =>
      rw [walk] at hw
      cases hw
      exact ⟨hJ1, hJ2⟩
    | cons t rest =>
      rw [walk] at hw
      cases hproc : processTodo m inc t with
      | none =>
        rw [hproc] at hw
        cases hw
      | some pr =>
        obtain ⟨inc', ch⟩ := pr
        rw [hproc] at hw
        obtain ⟨hJ1', hJ2'⟩ := processTodo_complete m hu inc t inc' ch rest hproc hJ1 hJ2
        exact ih _ _ _ hw hJ1' hJ2'

theorem initTodos_J (m : IndexedMetadata) (todos : List Todo)
    (hinit : initTodos m = some todos) :
    J1 m todos.reverse [] ∧ J2 m todos.reverse [] := by
  constructor
  · intro s hs p ws r hchain
    obtain ⟨ts, hts, hfs⟩ := mapM_mem_forward _ _ _ hinit s hs
    cases hpl : m.packages.lookup s with
    | none =>
      rw [hpl] at hfs
      cases hfs
    | some package =>
      rw [hpl] at hfs
      obtain rfl : _ = ts := Option.some.inj hfs
      exact Or.inl ⟨_, List.mem_reverse.mpr hts, ws, r, hchain, fun h => h, fun h => h⟩
  · intro a package e haL hsrc hlook
    simp [includedLookup] at hlook

theorem reach_delivered (m : IndexedMetadata) (hseeds : SeedsLocal m) (I : Included)
    (hJ1 : J1 m [] I) (hJ2 : J2 m [] I) :
    ∀ (p : PackageId) (ws r : Bool), Reach m p ws r →
      ∀ q wsq rq, LeadsC m p ws r q wsq rq → EntCov m I q rq := by
  intro p ws r hreach
  induction hreach with
  | seed pid hmem =>
    intro q wsq rq hchain
    rcases hJ1 pid hmem q wsq rq hchain with ⟨u, hu', _⟩ | hent
    · cases hu'
    · exact hent
  | step p0 ws0 r0 c rc hre hstep ih =>
    intro q wsq rq hchain
    by_cases hl : IsLocalPackage m p0
    · exact ih q wsq rq (LeadsC.step _ _ _ _ _ _ _ _ hl hstep hchain)
    · obtain ⟨package, node, dep, hp, hn, hdep, hc, hadm, hrc⟩ := hstep
      have hsrc : package.source.isSome = true := by
        cases hs : package.source.isSome
        · exact absurd ((isLocal_iff m p0 package hp).mpr hs) hl
        · rfl
      have hws0 : ws0 = false := by
        cases hw : ws0
        · rfl
        · exfalso
          rw [hw] at hre
          obtain ⟨hmem, _⟩ := Reach_true_seed m p0 r0 hre
          exact hl (hseeds p0 hmem)
      obtain ⟨e, he, hdom⟩ := ih p0 ws0 r0 (LeadsC.refl _ _ _) package hp hsrc
      have hstep0 : StepRel m p0 ws0 r0 c rc :=
        ⟨package, node, dep, hp, hn, hdep, hc, hadm, hrc⟩
      obtain ⟨rc', hstep', hrcd⟩ := StepRel_mono m p0 ws0 r0 c rc false e.kind.run_at_build
        hstep0 (by rw [hws0]; exact fun h => h) (fun hr0 => hdom (by rw [hr0]; rfl))
      obtain ⟨wsq', rq', hchain', hd1, hd2⟩ := LeadsC_mono m c false rc q wsq rq hchain
        false rc' (fun h => h) hrcd
      rcases hJ2 p0 package e hp hsrc he c rc' hstep' q wsq' rq' hchain' with
        ⟨u, hu', _⟩ | hent
      · cases hu'
      · exact EntCov_mono_r m I q rq rq' hent hd2

/-- Claim C5, amended: over an acyclic metadata graph whose workspace default
members are all local packages and in which no two distinct package ids are
registry packages sharing a (name, version) pair, a recorded entry's
`kind.run_at_build` is true iff some admissible reach path from a workspace
default member to a registry package with that name and version accumulates
the run-at-build flag (a build-kind edge on the way, or a proc-macro node,
the reached package itself included). -/
theorem c5_run_at_build_iff (m : IndexedMetadata) (rank : PackageId → Nat)
    (_hacyc : RankedAcyclic m rank) (hseeds : SeedsLocal m) (hu : UniqueRegistryNV m)
    (fuel : Nat) (I : Included) (hrun : resolve_platform fuel m [] = WalkRes.done I)
    (name : String) (version : Version) (e : IncludedDependencyVersion)
    (hlook : includedLookup I name version = some e) :
    (e.kind.run_at_build = true ↔ ReachRuns m name version) := by
  rw [resolve_platform] at hrun
  cases hinit : initTodos m with
  | none =>
    rw [hinit] at hrun
    cases hrun
  | some todos =>
    rw [hinit] at hrun
    have hseedtodos : ∀ t ∈ todos.reverse, t.pkg ∈ m.get_workspace_default_members ∧
        todoWs t = true ∧ t.kind.run_at_build = false := by
      intro t ht
      obtain ⟨s, hs, hfs⟩ := mapM_mem_backward _ _ _ hinit t (List.mem_reverse.mp ht)
      cases hpl : m.packages.lookup s with
      | none =>
        rw [hpl] at hfs
        cases hfs
      | some package =>
        rw [hpl] at hfs
        obtain rfl : _ = t := Option.some.inj hfs
        exact ⟨hs, rfl, rfl⟩
    constructor
    · intro hrab
      have hsound : IncSound m I := by
        refine walk_sound m hu fuel todos.reverse [] I hrun ?_ ?_ (IncSound_nil m)
        · intro t ht
          obtain ⟨hmem, hws, hrab0⟩ := hseedtodos t ht
          show Reach m t.pkg (todoWs t) t.kind.run_at_build
          rw [hws, hrab0]
          exact Reach.seed t.pkg hmem
        · intro t ht _
          exact hseeds t.pkg (hseedtodos t ht).1
      exact hsound name version e hlook hrab
    · intro hrr
      obtain ⟨pid, package, ws, r, hlookp, hsrc, hname, hver, hreach, hrab⟩ := hrr
      obtain ⟨hJ1i, hJ2i⟩ := initTodos_J m todos hinit
      obtain ⟨hJ1f, hJ2f⟩ := walk_complete m hu fuel todos.reverse [] I hrun hJ1i hJ2i
      have hent := reach_delivered m hseeds I hJ1f hJ2f pid ws r hreach pid ws r
        (LeadsC.refl _ _ _)
      obtain ⟨e', he', hdom⟩ := hent package hlookp hsrc
      rw [hname, hver, hlook] at he'
      obtain rfl : e = e' := Option.some.inj he'
      exact hdom hrab

theorem Reach_cases (m : IndexedMetadata) (p : PackageId) (ws r : Bool)
    (h : Reach m p ws r) :
    (p ∈ m.get_workspace_default_members ∧ ws = true ∧ r = false) ∨
    (ws = false ∧ ∃ p' ws' r', Reach m p' ws' r' ∧ StepRel m p' ws' r' p r) := by
  cases h with
  | seed pid hmem => exact Or.inl ⟨hmem, rfl, rfl⟩
  | step p0 ws0 r0 c rc hre hstep => exact Or.inr ⟨rfl, p0, ws0, r0, hre, hstep⟩

/-- Claim C5 as stated is false, in two ways. First (`exMetaCex2`): with local
seeds and an acyclic graph, two registry package ids sharing a (name, version)
pair make the second visit inherit the first one's merged run-at-build flag
and hand it to its children, so `c`'s entry records `run_at_build = true`
although no admissible reach path to `c` carries the flag. Second
(`exMetaCex`): a registry default member's workspace visit is cut off after
its entry was already recorded by a dependency visit, so its dev edge is
never walked and `c`'s entry records `run_at_build = false` although an
admissible reach path through the dev edge and a build edge carries the
flag. -/
theorem c5_counterexample :
    (RankedAcyclic exMetaCex2 exRankCex2 ∧ SeedsLocal exMetaCex2 ∧
     resolve_platform 20 exMetaCex2 [] = WalkRes.done exIncCex2 ∧
     (includedLookup exIncCex2 "c" exVersion100).map (fun e => e.kind.run_at_build) =
       some true ∧
     ¬ ReachRuns exMetaCex2 "c" exVersion100) ∧
    (RankedAcyclic exMetaCex exRankCex ∧ UniqueRegistryNV exMetaCex ∧
     resolve_platform 20 exMetaCex [] = WalkRes.done exIncCex ∧
     (includedLookup exIncCex "c" exVersion100).map (fun e => e.kind.run_at_build) =
       some false ∧
     ReachRuns exMetaCex "c" exVersion100) := by
  constructor
  · refine ⟨by decide, by decide, rfl, rfl, ?_⟩
    have hstepinv : ∀ p ws r c rc, StepRel exMetaCex2 p ws r c rc →
        ((p = 0 ∧ (c = 3 ∨ c = 1) ∧ rc = r) ∨ (p = 1 ∧ c = 2 ∧ rc = true) ∨
         (p = 3 ∧ c = 4 ∧ rc = r)) := by
      rintro p ws r c rc ⟨package, node, dep, hp, hn, hdep, hc, hadm, hrc⟩
      have hmn := lookup_mem hn
      simp only [exMetaCex2, List.mem_cons, List.not_mem_nil, or_false,
        Prod.mk.injEq] at hmn
      rcases hmn with ⟨rfl, rfl⟩ | ⟨rfl, rfl⟩ | ⟨rfl, rfl⟩ | ⟨rfl, rfl⟩ | ⟨rfl, rfl⟩
      · rw [show exMetaCex2.packages.lookup 0 = some (exPackageLocal "a") from rfl] at hp
        obtain rfl : exPackageLocal "a" = package := Option.some.inj hp
        simp only [List.mem_cons, List.not_mem_nil, or_false] at hdep
        rcases hdep with rfl | rfl
        · refine Or.inl ⟨rfl, Or.inl hc, ?_⟩
          rw [hrc]
          show (r || false || false) = r
          simp
        · refine Or.inl ⟨rfl, Or.inr hc, ?_⟩
          rw [hrc]
          show (r || false || false) = r
          simp
      · rw [show exMetaCex2.packages.lookup 1 = some (exPackageLocal "l") from rfl] at hp
        obtain rfl : exPackageLocal "l" = package := Option.some.inj hp
        simp only [List.mem_cons, List.not_mem_nil, or_false] at hdep
        subst hdep
        refine Or.inr (Or.inl ⟨rfl, hc, ?_⟩)
        rw [hrc]
        show (r || false || true) = true
        simp
      · simp only [List.not_mem_nil] at hdep
      · rw [show exMetaCex2.packages.lookup 3 = some (exPackageRegistry "x") from rfl] at hp
        obtain rfl : exPackageRegistry "x" = package := Option.some.inj hp
        simp only [List.mem_cons, List.not_mem_nil, or_false] at hdep
        subst hdep
        refine Or.inr (Or.inr ⟨rfl, hc, ?_⟩)
        rw [hrc]
        show (r || false || false) = r
        simp
      · simp only [List.not_mem_nil] at hdep
    have h0 : ∀ ws r, Reach exMetaCex2 0 ws r → r = false := by
      intro ws r h
      rcases Reach_cases _ _ _ _ h with ⟨_, _, rfl⟩ | ⟨_, p', ws', r', hre', hst'⟩
      · rfl
      · rcases hstepinv p' ws' r' 0 r hst' with ⟨_, hc, _⟩ | ⟨_, hc, _⟩ | ⟨_, hc, _⟩
        · rcases hc with hc | hc
          · exact absurd hc (by decide)
          · exact absurd hc (by decide)
        · exact absurd hc (by decide)
        · exact absurd hc (by decide)
    have h3 : ∀ ws r, Reach exMetaCex2 3 ws r → r = false := by
      intro ws r h
      rcases Reach_cases _ _ _ _ h with ⟨_, _, rfl⟩ | ⟨_, p', ws', r', hre', hst'⟩
      · rfl
      · rcases hstepinv p' ws' r' 3 r hst' with ⟨rfl, _, hrc⟩ | ⟨_, hc, _⟩ | ⟨_, hc, _⟩
        · exact hrc.trans (h0 ws' r' hre')
        · exact absurd hc (by decide)
        · exact absurd hc (by decide)
    have h4 : ∀ ws r, Reach exMetaCex2 4 ws r → r = false := by
      intro ws r h
      rcases Reach_cases _ _ _ _ h with ⟨_, _, rfl⟩ | ⟨_, p', ws', r', hre', hst'⟩
      · rfl
      · rcases hstepinv p' ws' r' 4 r hst' with ⟨_, hc, _⟩ | ⟨_, hc, _⟩ | ⟨rfl, _, hrc⟩
        · rcases hc with hc | hc
          · exact absurd hc (by decide)
          · exact absurd hc (by decide)
        · exact absurd hc (by decide)
        · exact hrc.trans (h3 ws' r' hre')
    rintro ⟨pid, package, ws, r, hlookp, hsrc, hname, hver, hreach, hrab⟩
    have hmp := lookup_mem hlookp
    simp only [exMetaCex2, List.mem_cons, List.not_mem_nil, or_false,
      Prod.mk.injEq] at hmp
    rcases hmp with ⟨rfl, rfl⟩ | ⟨rfl, rfl⟩ | ⟨rfl, rfl⟩ | ⟨rfl, rfl⟩ | ⟨rfl, rfl⟩
    · exact absurd hname (by decide)
    · exact absurd hname (by decide)
    · exact absurd hname (by decide)
    · exact absurd hname (by decide)
    · have hr4 := h4 ws r hreach
      subst hr4
      exact absurd hrab (by decide)
  · refine ⟨by decide, by decide, rfl, rfl, ?_⟩
    have hreach2 : Reach exMetaCex 2 false false :=
      Reach.step 1 true false 2 false (Reach.seed 1 (by decide))
        ⟨exPackageRegistry "b", ⟨[⟨2, [EdgeKind.development]⟩]⟩,
         ⟨2, [EdgeKind.development]⟩, rfl, rfl, List.mem_cons_self _ _, rfl,
         ⟨EdgeKind.development, List.mem_cons_self _ _, Or.inl rfl⟩, by decide⟩
    have hreach3 : Reach exMetaCex 3 false true :=
      Reach.step 2 false false 3 true hreach2
        ⟨exPackageLocal "l", ⟨[⟨3, [EdgeKind.build]⟩]⟩, ⟨3, [EdgeKind.build]⟩,
         rfl, rfl, List.mem_cons_self _ _, rfl,
         ⟨EdgeKind.build, List.mem_cons_self _ _, Or.inr (by decide)⟩, by decide⟩
    exact ⟨3, exPackageRegistry "c", false, true, rfl, rfl, rfl, rfl, hreach3, by decide⟩

/-- Witness for claim C5's amended theorem: on the healthy one-member
workspace `exMetaW` every hypothesis holds concretely and the recorded entry
for `c` satisfies the equivalence. -/
theorem c5_witness :
    RankedAcyclic exMetaW exRankW ∧ SeedsLocal exMetaW ∧ UniqueRegistryNV exMetaW ∧
    resolve_platform 9 exMetaW [] = WalkRes.done exIncW ∧
    includedLookup exIncW "c" exVersion100 = some exEntryW ∧
    (exEntryW.kind.run_at_build = true ↔ ReachRuns exMetaW "c" exVersion100) :=
  ⟨by decide, by decide, by decide, rfl, rfl,
   c5_run_at_build_iff exMetaW exRankW (by decide) (by decide) (by decide) 9 exIncW rfl
     "c" exVersion100 exEntryW rfl⟩

end ResolveDiff
